import Mathlib

/-!
Verification of the divide-and-conquer Voronoi construction engine
(`VoronoiDiagram/voronoi_core.py`, data types from `VoronoiDiagram/myStructs.py`).

Shallow embedding conventions:
* Python floats are idealised as exact rationals (`ℚ`); every comparison,
  threshold and arithmetic operation of the source is translated literally
  over `ℚ`.
* `math.hypot` (a square root) only ever feeds integer-truncating or
  threshold comparisons in the source; each such use is translated by the
  exact identities `⌊√x / k⌋ = ⌊√⌊x⌋⌋ / k` and `√a < b ↔ a < b²` (for
  `a, b ≥ 0`), so no irrational number is needed.
* Python's `sorted` is a stable sort; at every call site in this program the
  sort keys are pairwise distinct (arguments are deduplicated first), so the
  sorted result is the unique sorted permutation and `List.insertionSort`
  models it exactly.
* CPython object identity (`is`) on sites is modelled by the index of the
  site in the ambient site list: the lists handed to the classifier are
  slices of a deduplicated, sorted array, in which all elements are
  pairwise distinct objects and values.
-/

namespace VoronoiCore

/-- Plain coordinate pair, used for the tuple-valued geometry helpers of the
source (`_perp_bisector`, `_intersect_line_with_rect`, …). -/
abbrev Pt := ℚ × ℚ

/-- Site / 2-D point (`myStructs.Point`), coordinates idealised as rationals. -/
structure Point where
  x : ℚ
  y : ℚ
deriving DecidableEq, Inhabited

/-- Voronoi edge (`myStructs.Edge`); the polygon labels of the source are
never set by the core algorithm and are omitted. -/
structure Edge where
  start : Point
  stop : Point
deriving DecidableEq, Inhabited

/-- Convert a raw pair into a `Point` (the source's `Point(sx, sy)` calls). -/
def toPoint (p : Pt) : Point := ⟨p.1, p.2⟩

/-- Global epsilon of `voronoi_core.py` (`EPS = 1e-9`). -/
def EPS : ℚ := 1 / 1000000000

/-- Squared distance between two raw points (`_dist_sq`). -/
def distSq (p q : Pt) : ℚ := (p.1 - q.1) ^ 2 + (p.2 - q.2) ^ 2

/-- Banker's rounding to an integer: Python's `round` on the idealised exact
value (round half to even). -/
def bankersRound (q : ℚ) : ℤ :=
  let f := ⌊q⌋
  let r := q - (f : ℚ)
  if r < 1 / 2 then f
  else if 1 / 2 < r then f + 1
  else if 2 ∣ f then f else f + 1

/-- Python's `round(x, 6)`, idealised over exact rationals. -/
def pyRound6 (q : ℚ) : ℚ := (bankersRound (q * 1000000) : ℚ) / 1000000

/-- Deduplication key of `_unique_points`: `(round(p.x, 6), round(p.y, 6))`. -/
def roundKey (p : Point) : Pt := (pyRound6 p.x, pyRound6 p.y)

/-- Worker for `_unique_points`: keep the first occurrence of each rounded
key, preserving order (`seen` collects the keys already emitted). -/
def uniquePointsAux : List Point → List Pt → List Point
  | [], _ => []
  | p :: rest, seen =>
    if roundKey p ∈ seen then uniquePointsAux rest seen
    else p :: uniquePointsAux rest (roundKey p :: seen)

/-- Source `_unique_points`. -/
def uniquePoints (pts : List Point) : List Point := uniquePointsAux pts []

/-- Lexicographic order on sites, the sort key `(p.x, p.y)` of the source. -/
def ptLe (p q : Point) : Prop := p.x < q.x ∨ (p.x = q.x ∧ p.y ≤ q.y)

instance : DecidableRel ptLe := fun p q => by unfold ptLe; infer_instance

instance : IsTotal Point ptLe :=
  ⟨fun p q => by
    unfold ptLe
    rcases lt_trichotomy p.x q.x with hx | hx | hx
    · exact Or.inl (Or.inl hx)
    · rcases le_total p.y q.y with hy | hy
      · exact Or.inl (Or.inr ⟨hx, hy⟩)
      · exact Or.inr (Or.inr ⟨hx.symm, hy⟩)
    · exact Or.inr (Or.inl hx)⟩

instance : IsTrans Point ptLe :=
  ⟨fun p q r hpq hqr => by
    unfold ptLe at *
    rcases hpq with h1 | ⟨h1, h1y⟩ <;> rcases hqr with h2 | ⟨h2, h2y⟩
    · exact Or.inl (h1.trans h2)
    · exact Or.inl (h2 ▸ h1)
    · exact Or.inl (h1 ▸ h2)
    · exact Or.inr ⟨h1.trans h2, h1y.trans h2y⟩⟩

instance : IsAntisymm Point ptLe :=
  ⟨fun p q hpq hqp => by
    unfold ptLe at *
    rcases hpq with h1 | ⟨h1, h1y⟩ <;> rcases hqp with h2 | ⟨h2, h2y⟩
    · exact absurd (h1.trans h2) (lt_irrefl _)
    · exact absurd h1 (h2 ▸ lt_irrefl _)
    · exact absurd h2 (h1 ▸ lt_irrefl _)
    · cases p; cases q
      exact congrArg₂ Point.mk h1 (le_antisymm h1y h2y)⟩

/-- Python's `sorted(pts, key=lambda p: (p.x, p.y))`; stability is
irrelevant because every list sorted by the program has pairwise distinct
coordinates (see the header comment). -/
def sortPts (pts : List Point) : List Point := List.insertionSort ptLe pts

/-- Lexicographic order on raw pairs (Python's default tuple order, used by
`sorted` in `_unique_points_on_rect` and on intersection lists). -/
def pairLe (p q : Pt) : Prop := p.1 < q.1 ∨ (p.1 = q.1 ∧ p.2 ≤ q.2)

instance : DecidableRel pairLe := fun p q => by unfold pairLe; infer_instance

instance : IsTotal Pt pairLe :=
  ⟨fun p q => by
    unfold pairLe
    rcases lt_trichotomy p.1 q.1 with hx | hx | hx
    · exact Or.inl (Or.inl hx)
    · rcases le_total p.2 q.2 with hy | hy
      · exact Or.inl (Or.inr ⟨hx, hy⟩)
      · exact Or.inr (Or.inr ⟨hx.symm, hy⟩)
    · exact Or.inr (Or.inl hx)⟩

instance : IsTrans Pt pairLe :=
  ⟨fun p q r hpq hqr => by
    unfold pairLe at *
    rcases hpq with h1 | ⟨h1, h1y⟩ <;> rcases hqr with h2 | ⟨h2, h2y⟩
    · exact Or.inl (h1.trans h2)
    · exact Or.inl (h2 ▸ h1)
    · exact Or.inl (h1 ▸ h2)
    · exact Or.inr ⟨h1.trans h2, h1y.trans h2y⟩⟩

instance : IsAntisymm Pt pairLe :=
  ⟨fun p q hpq hqp => by
    unfold pairLe at *
    rcases hpq with h1 | ⟨h1, h1y⟩ <;> rcases hqp with h2 | ⟨h2, h2y⟩
    · exact absurd (h1.trans h2) (lt_irrefl _)
    · exact absurd h1 (h2 ▸ lt_irrefl _)
    · exact absurd h2 (h1 ▸ lt_irrefl _)
    · cases p; exact Prod.ext h1 (le_antisymm h1y h2y)⟩

/-- Sorting raw pairs lexicographically. -/
def sortPairs (pts : List Pt) : List Pt := List.insertionSort pairLe pts

/-- Coordinate clamp of `_unique_points_on_rect`: snap to `0` or to the
dimension when within `1e-8`. -/
def clampCoord (v bound : ℚ) : ℚ :=
  if |v - 0| < 1 / 100000000 then 0
  else if |v - bound| < 1 / 100000000 then bound
  else v

/-- Point clamp of `_unique_points_on_rect`. -/
def clampPt (w h : ℚ) (p : Pt) : Pt := (clampCoord p.1 w, clampCoord p.2 h)

/-- Duplicate test of `_unique_points_on_rect` (within `1e-7` per axis). -/
def nearPt (a b : Pt) : Prop := |a.1 - b.1| < 1 / 10000000 ∧ |a.2 - b.2| < 1 / 10000000

instance : ∀ a b : Pt, Decidable (nearPt a b) := fun a b => by
  unfold nearPt; infer_instance

/-- Loop of `_unique_points_on_rect`: clamp each point, drop it when a
point within `1e-7` was already emitted, otherwise append it to `out`. -/
def uniqueOnRectAux (w h : ℚ) : List Pt → List Pt → List Pt
  | [], out => out
  | p :: rest, out =>
    let c := clampPt w h p
    if ∃ q ∈ out, nearPt q c then uniqueOnRectAux w h rest out
    else uniqueOnRectAux w h rest (out ++ [c])

/-- Source `_unique_points_on_rect`: clamp, deduplicate within `1e-7`,
then sort by `(x, y)`. -/
def uniquePointsOnRect (pts : List Pt) (w h : ℚ) : List Pt :=
  sortPairs (uniqueOnRectAux w h pts [])

/-- Source `_perp_bisector`, returning `(midpoint, direction)`.

The source divides the direction by `math.hypot(dirx, diry)` when that norm
exceeds `EPS`; the normalisation factor is irrational in general, so this
embedding returns the raw perpendicular direction `(-(y2-y1), x2-x1)` and
`intersectLineWithRect` rescales its near-axis thresholds by the norm,
which leaves every computed point and every branch condition of the source
unchanged (the intersection points depend only on the spanned line, and
`|dx/‖d‖| < EPS ↔ dx² < EPS²·‖d‖²`). -/
def perpBisector (p1 p2 : Point) : Pt × Pt :=
  (((p1.x + p2.x) / 2, (p1.y + p2.y) / 2), (-(p2.y - p1.y), p2.x - p1.x))

/-- Source `_intersect_line_with_rect` (with `uniquePointsOnRect` applied to
the collected candidates, exactly as in the source).  `dir` is the raw
(unnormalised) direction; the threshold `thr` is `EPS²` scaled by `‖dir‖²`
exactly when the source would have normalised `dir` (`‖dir‖ > EPS`, i.e.
`‖dir‖² > EPS²`), so each branch test agrees with the source's
`abs(component) < EPS` on the possibly-normalised direction. -/
def intersectLineWithRect (mid dir : Pt) (w h : ℚ) : List Pt :=
  let mx := mid.1
  let my := mid.2
  let dx := dir.1
  let dy := dir.2
  let normSq := dx ^ 2 + dy ^ 2
  let thr := if EPS ^ 2 < normSq then EPS ^ 2 * normSq else EPS ^ 2
  if dx ^ 2 < thr then
    uniquePointsOnRect
      (if 0 - EPS ≤ mx ∧ mx ≤ w + EPS then [(mx, 0), (mx, h)] else []) w h
  else if dy ^ 2 < thr then
    uniquePointsOnRect
      (if 0 - EPS ≤ my ∧ my ≤ h + EPS then [(0, my), (w, my)] else []) w h
  else
    let cand : List ℚ := [(0 - mx) / dx, (w - mx) / dx, (0 - my) / dy, (h - my) / dy]
    let pts := (cand.map fun t => (mx + t * dx, my + t * dy)).filter
      fun p => 0 - EPS ≤ p.1 ∧ p.1 ≤ w + EPS ∧ 0 - EPS ≤ p.2 ∧ p.2 ≤ h + EPS
    uniquePointsOnRect pts w h

/-- Order on `(squared distance, site index)` pairs modelling
`heapq.nsmallest(3, dists, key=lambda x: x[0])`: `nsmallest` is a stable
selection (`sorted(dists, key)[:3]`), and since the pairs are produced in
strictly increasing index order, stable sorting by distance coincides with
lexicographic sorting by `(distance, index)`. -/
def distLe (a b : ℚ × ℕ) : Prop := a.1 < b.1 ∨ (a.1 = b.1 ∧ a.2 ≤ b.2)

instance : DecidableRel distLe := fun p q => by unfold distLe; infer_instance

instance : IsTotal (ℚ × ℕ) distLe :=
  ⟨fun p q => by
    unfold distLe
    rcases lt_trichotomy p.1 q.1 with hx | hx | hx
    · exact Or.inl (Or.inl hx)
    · rcases le_total p.2 q.2 with hy | hy
      · exact Or.inl (Or.inr ⟨hx, hy⟩)
      · exact Or.inr (Or.inr ⟨hx.symm, hy⟩)
    · exact Or.inr (Or.inl hx)⟩

instance : IsTrans (ℚ × ℕ) distLe :=
  ⟨fun p q r hpq hqr => by
    unfold distLe at *
    rcases hpq with h1 | ⟨h1, h1y⟩ <;> rcases hqr with h2 | ⟨h2, h2y⟩
    · exact Or.inl (h1.trans h2)
    · exact Or.inl (h2 ▸ h1)
    · exact Or.inl (h1 ▸ h2)
    · exact Or.inr ⟨h1.trans h2, h1y.trans h2y⟩⟩

/-- Distance/index pairs of the classifier at sample point `(x, y)`, sorted
as `heapq.nsmallest` would order them (see `distLe`). -/
def sortedDistances (sites : List Point) (x y : ℚ) : List (ℚ × ℕ) :=
  List.insertionSort distLe
    (sites.enum.map fun s => ((x - s.2.x) ^ 2 + (y - s.2.y) ^ 2, s.1))

/-- Keep/drop predicate `is_valid` of `_filter_segment_by_closest_pair`:
the point at parameter `t` of segment `A`–`B` is kept iff the two nearest
sites (by CPython object identity, modelled as indices `ia`, `ib` into
`sites`) are exactly the generating pair and the nearest one is more than
`1e-7` closer than the third-nearest. -/
def isValid (A B : Pt) (ia ib : ℕ) (sites : List Point) (t : ℚ) : Bool :=
  let x := A.1 + t * (B.1 - A.1)
  let y := A.2 + t * (B.2 - A.2)
  let closest3 := (sortedDistances sites x y).take 3
  if closest3.length < 2 then true
  else
    let s0 := (closest3.getD 0 (0, 0)).2
    let s1 := (closest3.getD 1 (0, 0)).2
    let condPair := (s0 = ia ∧ s1 = ib) ∨ (s0 = ib ∧ s1 = ia)
    let strictlyCloser :=
      if 3 ≤ closest3.length then
        (closest3.getD 0 (0, 0)).1 < (closest3.getD 2 (0, 0)).1 - 1 / 10000000
      else True
    decide condPair && decide strictlyCloser

/-- Bisection `find_boundary` of `_filter_segment_by_closest_pair` (also
`bisect_boundary` of `_trim_edges_by_hp`): halve the bracket, moving the
`lo` end while it stays valid, and return `lo`; the fuel is `20`
(classifier) or `30` (trimmer) at the call sites. -/
def findBoundary (isV : ℚ → Bool) : ℕ → ℚ → ℚ → ℚ
  | 0, lo, _ => lo
  | n + 1, lo, hi =>
    let m := (lo + hi) / 2
    if isV m then findBoundary isV n m hi else findBoundary isV n lo m

/-- Inline entry bisection of `_filter_segment_by_closest_pair` for a
drop→keep transition: keeps the `hi` end on the valid side and returns
`hi` after 20 halving steps. -/
def entryBoundary (isV : ℚ → Bool) : ℕ → ℚ → ℚ → ℚ
  | 0, _, hi => hi
  | n + 1, lo, hi =>
    let m := (lo + hi) / 2
    if isV m then entryBoundary isV n lo m else entryBoundary isV n m hi

/-- Segment parametrisation `(ax + t·(bx-ax), ay + t·(by-ay))` used
throughout the sampling code. -/
def lerpPt (A B : Pt) (t : ℚ) : Pt := (A.1 + t * (B.1 - A.1), A.2 + t * (B.2 - A.2))

/-- Sample parameters `[i/(samples-1) for i in range(samples)]`. -/
def sampleTs (samples : ℕ) : List ℚ :=
  (List.range samples).map fun i : ℕ => (i : ℚ) / ((samples : ℚ) - 1)

/-- Sample count `max(60, int(seg_len / divisor))` where
`seg_len = math.hypot(…)`; translated by the exact identities
`⌊√x / k⌋ = ⌊√x⌋ / k` (integer division) and `⌊√x⌋ = Nat.sqrt ⌊x⌋` for
`x ≥ 0`, so only the squared length is needed. -/
def sampleCount (segLenSq : ℚ) (divisor : ℕ) : ℕ :=
  max 60 (Nat.sqrt (Int.toNat ⌊segLenSq⌋) / divisor)

/-- Main scan of `_filter_segment_by_closest_pair` over `(t, mask)` pairs.
State: `prev` is the previous sample parameter, `inSeg`/`startT` the
current-run state.  Emits `(start, end)` parameter intervals; the caller
maps them through `lerpPt`, which reproduces the inline endpoint
computations of the source exactly (the trailing endpoint `(bx, by)` is
`lerpPt A B 1`, exact in rational arithmetic). -/
def filterLoop (isV : ℚ → Bool) : List (ℚ × Bool) → ℚ → Bool → ℚ → List (ℚ × ℚ)
  | [], _, inSeg, startT => if inSeg then [(startT, 1)] else []
  | (t, v) :: rest, prev, inSeg, startT =>
    if v && !inSeg then
      filterLoop isV rest t true (entryBoundary isV 20 prev t)
    else if !v && inSeg then
      (startT, findBoundary isV 20 prev t) :: filterLoop isV rest t false startT
    else
      filterLoop isV rest t inSeg startT

/-- First iteration (`i == 0`) of the scan of
`_filter_segment_by_closest_pair`: if the first sample is valid, a run
starts at parameter `0.0`. -/
def filterScan (isV : ℚ → Bool) : List (ℚ × Bool) → List (ℚ × ℚ)
  | [] => []
  | (t, v) :: rest => filterLoop isV rest t v 0

/-- Source `_filter_segment_by_closest_pair` (its `samples` argument is
dead: the source immediately overwrites it). -/
def filterSegmentByClosestPair (A B : Pt) (ia ib : ℕ) (sites : List Point) :
    List (Pt × Pt) :=
  let segLenSq := distSq A B
  if segLenSq < 1 / 10 ^ 18 then []
  else
    let isV := isValid A B ia ib sites
    let ts := sampleTs (sampleCount segLenSq 4)
    let segs := (filterScan isV (ts.map fun t => (t, isV t))).map
      fun se => (lerpPt A B se.1, lerpPt A B se.2)
    segs.filter fun se => 1 / 10 ^ 10 < distSq se.1 se.2

/-- Source `_compute_single_bisector_segment`; `ia`, `ib` are the indices
of `pL`, `pR` in `sites`, modelling CPython identity. -/
def computeSingleBisectorSegment (pL pR : Point) (ia ib : ℕ) (sites : List Point)
    (w h : ℚ) : List Edge :=
  let md := perpBisector pL pR
  let inters := intersectLineWithRect md.1 md.2 w h
  if inters.length < 2 then []
  else
    let inters2 := if 2 < inters.length then sortPairs inters else inters
    let A := inters2.headD (0, 0)
    let B := inters2.getLastD (0, 0)
    (filterSegmentByClosestPair A B ia ib sites).map
      fun se => Edge.mk (toPoint se.1) (toPoint se.2)

/-- Source `_compute_dividing_chain`: all (left, right) cross pairs; the
ambient site list is `left ++ right`, so left site `i` has index `i` and
right site `j` has index `|left| + j`. -/
def computeDividingChain (leftPoints rightPoints : List Point) (w h : ℚ)
    (allSites : List Point) : List Edge :=
  if leftPoints = [] ∨ rightPoints = [] then []
  else
    leftPoints.enum.flatMap fun iL =>
      rightPoints.enum.flatMap fun jR =>
        computeSingleBisectorSegment iL.2 jR.2 iL.1 (leftPoints.length + jR.1) allSites w h

/-- Minimum squared distance from `(x, y)` to the sites (the
`float("inf")`-seeded min loop of `_side_value`); the empty-list case is
unreachable in the program (both halves of every split are nonempty) and
is mapped to `0`. -/
def minDistSq (x y : ℚ) : List Point → ℚ
  | [] => 0
  | p :: rest =>
    rest.foldl (fun acc q => min acc ((x - q.x) ^ 2 + (y - q.y) ^ 2))
      ((x - p.x) ^ 2 + (y - p.y) ^ 2)

/-- Source `_side_value`: `dR - dL`. -/
def sideValue (x y : ℚ) (leftSites rightSites : List Point) : ℚ :=
  minDistSq x y rightSites - minDistSq x y leftSites

/-- Keep predicate `is_keep` of `_trim_edges_by_hp` (`tol = 1e-6`). -/
def isKeep (keepLeft : Bool) (v : ℚ) : Bool :=
  if keepLeft then decide (-(1 / 1000000) ≤ v) else decide (v ≤ 1 / 1000000)

/-- Per-edge scan of `_trim_edges_by_hp` over consecutive sample pairs
`(t0,k0), (t1,k1)`, carrying `current_start_t`.  Emits `(start, end)`
parameter intervals (the caller applies the `1e-6` length filter, which the
source applies inline at each emission — same segments in the same
order). -/
def trimLoop (isK : ℚ → Bool) : List (ℚ × Bool) → Option ℚ → List (ℚ × ℚ)
  | (t0, k0) :: (t1, k1) :: rest, cur =>
    let cur2 := if k0 && cur.isNone then some t0 else cur
    if k0 = k1 then trimLoop isK ((t1, k1) :: rest) cur2
    else if k0 then
      (cur2.getD t0, findBoundary isK 30 t0 t1) :: trimLoop isK ((t1, k1) :: rest) none
    else
      trimLoop isK ((t1, k1) :: rest) (some (findBoundary isK 30 t1 t0))
  | [(_, k)], cur => if cur.isSome && k then [(cur.getD 0, 1)] else []
  | [], _ => []

/-- Parameter intervals produced for one edge by `_trim_edges_by_hp`. -/
def trimEdgeIntervals (leftSites rightSites : List Point) (keepLeft : Bool)
    (A B : Pt) : List (ℚ × ℚ) :=
  let segLenSq := distSq A B
  let samples0 := max 60 (Nat.sqrt (Int.toNat ⌊segLenSq⌋) / 8)
  let samples := if samples0 < 3 then 3 else samples0
  let ts := sampleTs samples
  let isK := fun t : ℚ =>
    isKeep keepLeft
      (sideValue (A.1 + t * (B.1 - A.1)) (A.2 + t * (B.2 - A.2)) leftSites rightSites)
  trimLoop isK (ts.map fun t => (t, isK t)) none

/-- Source `_trim_edges_by_hp`. -/
def trimEdgesByHP (edges : List Edge) (leftSites rightSites : List Point)
    (keepLeft : Bool) : List Edge :=
  edges.flatMap fun e =>
    let A : Pt := (e.start.x, e.start.y)
    let B : Pt := (e.stop.x, e.stop.y)
    (((trimEdgeIntervals leftSites rightSites keepLeft A B).map
        fun se => (lerpPt A B se.1, lerpPt A B se.2)).filter
      fun se => 1 / 10 ^ 12 < distSq se.1 se.2).map
      fun se => Edge.mk (toPoint se.1) (toPoint se.2)

/-- Turn test `cross(o, a, b)` of `_convex_hull_simple`. -/
def crossO (o a b : Point) : ℚ :=
  (a.x - o.x) * (b.y - o.y) - (a.y - o.y) * (b.x - o.x)

/-- Pop loop of the monotone chain; the stack is kept reversed (top
first), so `b` is `chain[-1]` and `a` is `chain[-2]`. -/
def chainPop (p : Point) : List Point → List Point
  | b :: a :: rest => if crossO a b p ≤ 0 then chainPop p (a :: rest) else b :: a :: rest
  | l => l

/-- One monotone chain (build over the given traversal order). -/
def chainFold (pts : List Point) : List Point :=
  (pts.foldl (fun st p => p :: chainPop p st) []).reverse

/-- Source `_convex_hull_simple` (monotone chain; `n ≤ 1` returns a copy). -/
def convexHullSimple (pts : List Point) : List Point :=
  if pts.length ≤ 1 then pts
  else
    let s := sortPts pts
    (chainFold s).dropLast ++ (chainFold s.reverse).dropLast

/-- Source `_circumcenter`. -/
def circumcenter (a b c : Point) : Option Pt :=
  let d := 2 * (a.x * (b.y - c.y) + b.x * (c.y - a.y) + c.x * (a.y - b.y))
  if |d| < EPS then none
  else
    some
      (((a.x ^ 2 + a.y ^ 2) * (b.y - c.y) + (b.x ^ 2 + b.y ^ 2) * (c.y - a.y) +
          (c.x ^ 2 + c.y ^ 2) * (a.y - b.y)) / d,
        ((a.x ^ 2 + a.y ^ 2) * (c.x - b.x) + (b.x ^ 2 + b.y ^ 2) * (a.x - c.x) +
          (c.x ^ 2 + c.y ^ 2) * (b.x - a.x)) / d)

/-- Source `_voronoi_two_points`. -/
def voronoiTwoPoints (p1 p2 : Point) (w h : ℚ) : List Edge :=
  if |p1.x - p2.x| < EPS ∧ |p1.y - p2.y| < EPS then []
  else
    let md := perpBisector p1 p2
    let inters := intersectLineWithRect md.1 md.2 w h
    if inters.length < 2 then []
    else
      let inters2 := if 2 < inters.length then sortPairs inters else inters
      [Edge.mk (toPoint (inters2.headD (0, 0))) (toPoint (inters2.getLastD (0, 0)))]

/-- One pair of the `_voronoi_three_points` loops: clip the line through
`base` with direction `dir` and classify against the three sites; `ia`,
`ib` are the indices of the generating pair in the three-site list. -/
def threePairSegs (base dir : Pt) (ia ib : ℕ) (sites : List Point) (w h : ℚ) :
    List Edge :=
  let inters := intersectLineWithRect base dir w h
  if inters.length < 2 then []
  else
    (filterSegmentByClosestPair (inters.headD (0, 0)) (inters.getLastD (0, 0))
        ia ib sites).map fun se => Edge.mk (toPoint se.1) (toPoint se.2)

/-- Dispatch of `_voronoi_three_points` on the circumcenter result (taken
as a parameter so the two branches can be analysed separately): the
collinear fall-back enumerates the three pairwise bisectors through their
midpoints, the circumcenter branch shoots the three bisector directions
through the circumcenter. -/
def voronoiThreeDispatch (p1 p2 p3 : Point) (w h : ℚ) : Option Pt → List Edge
  | none =>
    threePairSegs (perpBisector p1 p2).1 (perpBisector p1 p2).2 0 1 [p1, p2, p3] w h ++
      threePairSegs (perpBisector p1 p3).1 (perpBisector p1 p3).2 0 2 [p1, p2, p3] w h ++
      threePairSegs (perpBisector p2 p3).1 (perpBisector p2 p3).2 1 2 [p1, p2, p3] w h
  | some cc =>
    threePairSegs cc (perpBisector p1 p2).2 0 1 [p1, p2, p3] w h ++
      threePairSegs cc (perpBisector p2 p3).2 1 2 [p1, p2, p3] w h ++
      threePairSegs cc (perpBisector p3 p1).2 2 0 [p1, p2, p3] w h

/-- Source `_voronoi_three_points`: circumcenter rays when the three sites
are not collinear, otherwise the generic pairwise path. -/
def voronoiThreePoints (pts : List Point) (w h : ℚ) : List Edge :=
  voronoiThreeDispatch (pts.getD 0 default) (pts.getD 1 default) (pts.getD 2 default) w h
    (circumcenter (pts.getD 0 default) (pts.getD 1 default) (pts.getD 2 default))

/-- Result of one sub-problem (`VoronoiDiagram` dataclass); the hull is
always set by the core recursion, so the `Optional` of the source is
modelled as a plain list. -/
structure VoronoiDiagram where
  edges : List Edge
  hull : List Point
deriving DecidableEq, Inhabited

/-- Instrumentation record of one merge (`MergeStep` dataclass). -/
structure MergeStep where
  leftEdges : List Edge
  rightEdges : List Edge
  hyperplaneEdges : List Edge
  leftHull : List Point
  rightHull : List Point
  mergedHull : List Point
  medianX : ℚ
  leftSites : List Point
  rightSites : List Point
deriving DecidableEq, Inhabited

/-- Source `_merge_diagrams`.  The source appends its `MergeStep` to a
mutable shared list when `steps is not None`; this embedding returns the
records this call contributes, and `buildVoronoi` concatenates them in the
source's append order.  The `ℕ` component is ghost instrumentation: the
recursion depth of the merge, carried only to state ordering claims about
the step list (dropped by `computeVoronoiWithSteps`). -/
def mergeDiagrams (left right : VoronoiDiagram) (leftPoints rightPoints : List Point)
    (medianX : ℚ) (w h : ℚ) (record : Bool) (depth : ℕ) :
    VoronoiDiagram × List (ℕ × MergeStep) :=
  let allSites := leftPoints ++ rightPoints
  let hpEdges := computeDividingChain leftPoints rightPoints w h allSites
  let trimmedLeft := trimEdgesByHP left.edges leftPoints rightPoints true
  let trimmedRight := trimEdgesByHP right.edges leftPoints rightPoints false
  let mergedHull := convexHullSimple allSites
  (VoronoiDiagram.mk (trimmedLeft ++ trimmedRight ++ hpEdges) mergedHull,
    if record then
      [(depth,
        MergeStep.mk trimmedLeft trimmedRight hpEdges left.hull right.hull mergedHull
          medianX leftPoints rightPoints)]
    else [])

/-- Midpoint-index split `points_sorted[:mid]` / `points_sorted[mid:]`
(`mid = n // 2`) of `_build_voronoi`. -/
def splitSites (pts : List Point) : List Point × List Point :=
  (pts.take (pts.length / 2), pts.drop (pts.length / 2))

/-- Source `_build_voronoi`.  `record` models `steps is not None` (the
source's single optional argument doubles as shortcut-disable flag and
step sink); the returned list holds the depth-annotated merge records of
this subtree in append order: left subtree, then right subtree, then this
call's own merge.  The source is never invoked on an empty list (its
caller guards `n == 0`); this embedding returns an empty diagram there. -/
def buildVoronoi (pts : List Point) (w h : ℚ) (record : Bool) (depth : ℕ) :
    VoronoiDiagram × List (ℕ × MergeStep) :=
  if pts.length ≤ 1 then (VoronoiDiagram.mk [] pts, [])
  else if ¬record ∧ pts.length = 2 then
    (VoronoiDiagram.mk (voronoiTwoPoints (pts.getD 0 default) (pts.getD 1 default) w h)
      (sortPts pts), [])
  else if ¬record ∧ pts.length = 3 then
    (VoronoiDiagram.mk (voronoiThreePoints pts w h) (convexHullSimple pts), [])
  else
    let lp := (splitSites pts).1
    let rp := (splitSites pts).2
    let medianX := ((lp.getLastD default).x + (rp.headD default).x) / 2
    let ld := buildVoronoi lp w h record (depth + 1)
    let rd := buildVoronoi rp w h record (depth + 1)
    let md := mergeDiagrams ld.1 rd.1 lp rp medianX w h record depth
    (md.1, ld.2 ++ rd.2 ++ md.2)
termination_by pts.length
decreasing_by
  all_goals simp [splitSites, List.length_take, List.length_drop]; omega

/-- Source `compute_voronoi`. -/
def computeVoronoi (points : List Point) (w h : ℚ) : List Edge :=
  let uniq := uniquePoints points
  if uniq.length = 0 then []
  else
    let sortedPts := sortPts uniq
    if uniq.length = 1 then []
    else if uniq.length = 2 then
      voronoiTwoPoints (sortedPts.getD 0 default) (sortedPts.getD 1 default) w h
    else if uniq.length = 3 then voronoiThreePoints sortedPts w h
    else (buildVoronoi sortedPts w h false 0).1.edges

/-- Depth-annotated merge records of `compute_voronoi_with_steps` (ghost
depth added, see `mergeDiagrams`). -/
def stepsWithDepths (points : List Point) (w h : ℚ) : List (ℕ × MergeStep) :=
  let uniq := uniquePoints points
  if uniq.length = 0 then [] else (buildVoronoi (sortPts uniq) w h true 0).2

/-- Source `compute_voronoi_with_steps`. -/
def computeVoronoiWithSteps (points : List Point) (w h : ℚ) :
    List Edge × List MergeStep :=
  let uniq := uniquePoints points
  if uniq.length = 0 then ([], [])
  else
    let r := buildVoronoi (sortPts uniq) w h true 0
    (r.1.edges, r.2.map Prod.snd)

/-- Depth sequence of the merge records as a function of the site count
alone (the recursion splits by length only). -/
def buildDepths : ℕ → ℕ → List ℕ
  | n, d =>
    if n ≤ 1 then []
    else buildDepths (n / 2) (d + 1) ++ buildDepths (n - n / 2) (d + 1) ++ [d]
termination_by n _ => n
decreasing_by all_goals omega

/-! ### General lemmas about the embedded operations -/

set_option maxRecDepth 100000

theorem sortPts_length (pts : List Point) : (sortPts pts).length = pts.length :=
  List.length_insertionSort ptLe pts

theorem sortPts_perm (pts : List Point) : (sortPts pts).Perm pts :=
  List.perm_insertionSort ptLe pts

theorem sortPts_sorted (pts : List Point) : (sortPts pts).Sorted ptLe :=
  List.sorted_insertionSort ptLe pts

theorem sortedDistances_length (sites : List Point) (x y : ℚ) :
    (sortedDistances sites x y).length = sites.length := by
  unfold sortedDistances
  rw [List.length_insertionSort, List.length_map, List.enum_length]

/-! ### Claim C6 -/

/-- Claim C6: for sites `{(0,0), (10,0)}` and the 600×600 rectangle,
`compute` returns exactly one edge on the vertical line `x = 5`, running
from `(5, 0)` to `(5, 600)`. -/
theorem C6_two_sites_vertical_bisector :
    computeVoronoi [⟨0, 0⟩, ⟨10, 0⟩] 600 600 =
      [Edge.mk (Point.mk 5 0) (Point.mk 5 600)] := by
  with_unfolding_all decide

/-! ### Claim C8 -/

/-- Counterexample to claim C8: the hull builder does not return the input
unchanged for every list of at most 2 sites — for the 2-site input
`[(1,0), (0,0)]` it returns the sites sorted by `(x, y)`, which differs
from the input order. -/
theorem C8_counterexample :
    convexHullSimple [Point.mk 1 0, Point.mk 0 0] ≠ [Point.mk 1 0, Point.mk 0 0] ∧
    convexHullSimple [Point.mk 1 0, Point.mk 0 0] = [Point.mk 0 0, Point.mk 1 0] := by
  with_unfolding_all decide

theorem chainFold_pair (a b : Point) : chainFold [a, b] = [a, b] := by
  simp [chainFold, chainPop]

/-- Claim C8 as amended: for at most one site the hull builder returns the
input unchanged; for exactly two sites it returns the two sites sorted by
`(x, y)` (hence the input unchanged exactly when the input was already
sorted). -/
theorem C8_amended_hull_small_inputs :
    (∀ pts : List Point, pts.length ≤ 1 → convexHullSimple pts = pts) ∧
    (∀ p q : Point, convexHullSimple [p, q] = sortPts [p, q]) := by
  constructor
  · intro pts hlen
    unfold convexHullSimple
    simp [hlen]
  · intro p q
    unfold convexHullSimple
    have hlen : (sortPts [p, q]).length = 2 := by rw [sortPts_length]; rfl
    simp only [List.length_cons, List.length_nil]
    norm_num
    rcases hs : sortPts [p, q] with _ | ⟨a, _ | ⟨b, _ | ⟨c, rest⟩⟩⟩
    · rw [hs] at hlen; simp at hlen
    · rw [hs] at hlen; simp at hlen
    · simp [chainFold_pair]
    · rw [hs] at hlen; simp at hlen

/-- Witness for `C8_amended_hull_small_inputs`. -/
theorem C8_amended_hull_small_inputs_witness :
    ([Point.mk 3 4] : List Point).length ≤ 1 ∧
      convexHullSimple [Point.mk 3 4] = [Point.mk 3 4] :=
  ⟨by decide, C8_amended_hull_small_inputs.1 [Point.mk 3 4] (by decide)⟩

/-! ### Claim C1 -/

/-- Claim C1's keep condition, read off the specification sentence: the two
nearest sites (in the canonical nearest-first order of `sortedDistances`,
identity modelled by index) are exactly the generating pair `{ia, ib}`, and
they are strictly the two nearest with a margin greater than `1e-7` over
the third-nearest site (vacuous when there is no third site). -/
def claimC1Keeps (A B : Pt) (ia ib : ℕ) (sites : List Point) (t : ℚ) : Prop :=
  let l := sortedDistances sites (A.1 + t * (B.1 - A.1)) (A.2 + t * (B.2 - A.2))
  2 ≤ sites.length ∧
    (((l.getD 0 (0, 0)).2 = ia ∧ (l.getD 1 (0, 0)).2 = ib) ∨
      ((l.getD 0 (0, 0)).2 = ib ∧ (l.getD 1 (0, 0)).2 = ia)) ∧
    (3 ≤ sites.length → (l.getD 1 (0, 0)).1 < (l.getD 2 (0, 0)).1 - 1 / 10000000)

instance (A B : Pt) (ia ib : ℕ) (sites : List Point) (t : ℚ) :
    Decidable (claimC1Keeps A B ia ib sites t) := by
  unfold claimC1Keeps; infer_instance

/-- Counterexample to claim C1: at the sample point `(0,0)` of the segment
`(0,0)`–`(2,0)` with sites `0:(0,0)`, `1:(3,4)`, `2:(5,0)` and generating
pair `(0, 1)`, the second-nearest site `(3,4)` is exactly tied with the
third-nearest `(5,0)` (both at squared distance 25), so the pair is not
strictly the two nearest with any positive margin over the third — yet the
classifier keeps the point, because the code compares the *nearest*
distance (0) against the third-nearest, not the second-nearest. -/
theorem C1_counterexample :
    isValid (0, 0) (2, 0) 0 1 [Point.mk 0 0, Point.mk 3 4, Point.mk 5 0] 0 = true ∧
    ¬ claimC1Keeps (0, 0) (2, 0) 0 1 [Point.mk 0 0, Point.mk 3 4, Point.mk 5 0] 0 := by
  with_unfolding_all decide

/-- Claim C1 as amended: the classifier keeps a sample point iff either
there are fewer than two sites, or the two nearest sites (by identity,
ties broken by index) are exactly the generating pair and the *nearest*
site is more than `1e-7` closer than the third-nearest (vacuous when there
is no third site). -/
def amendedC1Keeps (A B : Pt) (ia ib : ℕ) (sites : List Point) (t : ℚ) : Prop :=
  let l := sortedDistances sites (A.1 + t * (B.1 - A.1)) (A.2 + t * (B.2 - A.2))
  sites.length < 2 ∨
    ((((l.getD 0 (0, 0)).2 = ia ∧ (l.getD 1 (0, 0)).2 = ib) ∨
        ((l.getD 0 (0, 0)).2 = ib ∧ (l.getD 1 (0, 0)).2 = ia)) ∧
      (3 ≤ sites.length → (l.getD 0 (0, 0)).1 < (l.getD 2 (0, 0)).1 - 1 / 10000000))

/-- Claim C1 as amended, proved: the keep predicate `is_valid` holds iff
the amended condition does. -/
theorem C1_amended_classifier_characterisation (A B : Pt) (ia ib : ℕ)
    (sites : List Point) (t : ℚ) :
    isValid A B ia ib sites t = true ↔ amendedC1Keeps A B ia ib sites t := by
  simp only [isValid, amendedC1Keeps]
  rw [← sortedDistances_length sites (A.1 + t * (B.1 - A.1)) (A.2 + t * (B.2 - A.2))]
  generalize sortedDistances sites (A.1 + t * (B.1 - A.1)) (A.2 + t * (B.2 - A.2)) = l
  rcases l with _ | ⟨a, l⟩
  · simp
  rcases l with _ | ⟨b, l⟩
  · simp
  rcases l with _ | ⟨c, l⟩
  · simp [List.getD]
  · simp only [List.take_succ_cons, List.take_zero, List.length_cons, List.getD, List.getElem?_cons_zero,
      List.getElem?_cons_succ, Option.getD_some, List.length_nil]
    norm_num

/-! ### Claims C3 and C4: the step records -/

theorem splitSites_fst_length (pts : List Point) :
    (splitSites pts).1.length = pts.length / 2 := by
  simp [splitSites, List.length_take]
  omega

theorem splitSites_snd_length (pts : List Point) :
    (splitSites pts).2.length = pts.length - pts.length / 2 := by
  simp [splitSites, List.length_drop]

/-- With step recording on, the depth sequence of the produced records is a
function of the site count alone. -/
theorem buildVoronoi_depths (n : ℕ) :
    ∀ (pts : List Point), pts.length = n → ∀ (w h : ℚ) (d : ℕ),
      ((buildVoronoi pts w h true d).2).map Prod.fst = buildDepths n d := by
  induction n using Nat.strong_induction_on with
  | _ n ih =>
    intro pts hlen w h d
    rw [buildVoronoi, buildDepths]
    by_cases h1 : n ≤ 1
    · simp [hlen, h1]
    · have h2 : ¬ pts.length ≤ 1 := by omega
      simp only [hlen, h1, h2, if_false, not_true, false_and, mergeDiagrams,
        if_true, List.map_append]
      rw [ih (n / 2) (by omega) (splitSites pts).1
          (by rw [splitSites_fst_length, hlen]) w h (d + 1),
        ih (n - n / 2) (by omega) (splitSites pts).2
          (by rw [splitSites_snd_length, hlen]) w h (d + 1)]
      simp

/-- Counterexample to claim C3: for five distinct sites the annotated step
depths of `computeWithSteps` come out as `[1, 2, 1, 0]` — the third record
(depth 1, the left half's merge is followed by the right half's deeper
merge at depth 2 before it) breaks the claimed "all deeper levels before
all shallower levels" ordering. -/
theorem C3_counterexample :
    ¬ ((stepsWithDepths [Point.mk 0 0, Point.mk 10 3, Point.mk 20 7, Point.mk 30 1,
          Point.mk 40 9] 600 600).map Prod.fst).Sorted (fun a b => b ≤ a) := by
  have h0 : (uniquePoints [Point.mk 0 0, Point.mk 10 3, Point.mk 20 7, Point.mk 30 1,
      Point.mk 40 9]).length = 5 := by with_unfolding_all decide
  have h1 : (sortPts (uniquePoints [Point.mk 0 0, Point.mk 10 3, Point.mk 20 7,
      Point.mk 30 1, Point.mk 40 9])).length = 5 := by rw [sortPts_length, h0]
  simp only [stepsWithDepths, h0]
  rw [if_neg (by omega)]
  rw [buildVoronoi_depths 5 _ h1 600 600 0]
  have e1 : ∀ d, buildDepths 1 d = [] := fun d => by rw [buildDepths]; norm_num
  have e2 : ∀ d, buildDepths 2 d = [d] := fun d => by rw [buildDepths]; norm_num [e1]
  have e3 : ∀ d, buildDepths 3 d = [d + 1, d] := fun d => by
    rw [buildDepths]; norm_num [e1, e2]
  have hb : buildDepths 5 0 = [1, 2, 1, 0] := by rw [buildDepths]; norm_num [e2, e3]
  rw [hb]
  decide

/-- Claim C3 as amended: with step recording on, the record list is in
postorder of the recursion tree — for any split node, all records of the
left subtree come first, then all records of the right subtree, and the
node's own merge record (at its own depth `d`) comes last. -/
theorem C3_amended_steps_postorder (pts : List Point) (w h : ℚ) (d : ℕ)
    (hn : 2 ≤ pts.length) :
    ∃ own : MergeStep,
      (buildVoronoi pts w h true d).2 =
        (buildVoronoi (splitSites pts).1 w h true (d + 1)).2 ++
          (buildVoronoi (splitSites pts).2 w h true (d + 1)).2 ++ [(d, own)] := by
  rw [buildVoronoi]
  have h1 : ¬ pts.length ≤ 1 := by omega
  simp [h1, mergeDiagrams]

/-- Witness for `C3_amended_steps_postorder`. -/
theorem C3_amended_steps_postorder_witness :
    2 ≤ ([Point.mk 0 0, Point.mk 1 0] : List Point).length ∧
      ∃ own : MergeStep,
        (buildVoronoi [Point.mk 0 0, Point.mk 1 0] 600 600 true 0).2 =
          (buildVoronoi (splitSites [Point.mk 0 0, Point.mk 1 0]).1 600 600 true 1).2 ++
            (buildVoronoi (splitSites [Point.mk 0 0, Point.mk 1 0]).2 600 600 true 1).2 ++
            [(0, own)] :=
  ⟨by decide, C3_amended_steps_postorder [Point.mk 0 0, Point.mk 1 0] 600 600 0 (by decide)⟩

theorem buildDepths_length (n : ℕ) : ∀ d, (buildDepths n d).length = n - 1 := by
  induction n using Nat.strong_induction_on with
  | _ n ih =>
    intro d
    rw [buildDepths]
    by_cases h1 : n ≤ 1
    · simp only [h1, if_true, List.length_nil]
      omega
    · simp only [h1, if_false, List.length_append, List.length_cons, List.length_nil]
      rw [ih (n / 2) (by omega), ih (n - n / 2) (by omega)]
      omega

/-- Claim C4: whenever deduplication leaves `n ≥ 1` sites,
`computeWithSteps` returns exactly `n - 1` merge records — recording mode
bottoms out only at single sites, so every split contributes one record,
including for 2- or 3-site inputs. -/
theorem C4_step_count (pts : List Point) (w h : ℚ)
    (hn : 1 ≤ (uniquePoints pts).length) :
    (computeVoronoiWithSteps pts w h).2.length = (uniquePoints pts).length - 1 := by
  simp only [computeVoronoiWithSteps]
  rw [if_neg (by omega)]
  simp only [List.length_map]
  have h := congrArg List.length
    (buildVoronoi_depths (sortPts (uniquePoints pts)).length
      (sortPts (uniquePoints pts)) rfl w h 0)
  rw [List.length_map] at h
  rw [h, buildDepths_length, sortPts_length]

/-- Witness for `C4_step_count`. -/
theorem C4_step_count_witness :
    1 ≤ (uniquePoints [Point.mk 0 0, Point.mk 7 0, Point.mk 3 5]).length ∧
      (computeVoronoiWithSteps [Point.mk 0 0, Point.mk 7 0, Point.mk 3 5] 600 600).2.length =
        (uniquePoints [Point.mk 0 0, Point.mk 7 0, Point.mk 3 5]).length - 1 :=
  ⟨by with_unfolding_all decide,
    C4_step_count [Point.mk 0 0, Point.mk 7 0, Point.mk 3 5] 600 600
      (by with_unfolding_all decide)⟩

/-! ### Claim C9: termination of the recursion -/

/-- Claim C9: `buildVoronoi` — and with it `computeVoronoi` and
`computeVoronoiWithSteps` — is a total function in this embedding (it is
accepted by well-founded recursion on the site count), because every
recursive call splits a list of `n ≥ 2` sites at the midpoint index into
two strictly smaller nonempty halves whose concatenation is the input;
this theorem states that size argument. -/
theorem C9_split_decreases (pts : List Point) (hn : 2 ≤ pts.length) :
    0 < (splitSites pts).1.length ∧ 0 < (splitSites pts).2.length ∧
      (splitSites pts).1.length < pts.length ∧
      (splitSites pts).2.length < pts.length ∧
      (splitSites pts).1 ++ (splitSites pts).2 = pts := by
  refine ⟨?_, ?_, ?_, ?_, List.take_append_drop _ _⟩ <;>
    simp only [splitSites_fst_length, splitSites_snd_length] <;> omega

/-- Witness for `C9_split_decreases`. -/
theorem C9_split_decreases_witness :
    2 ≤ ([Point.mk 0 0, Point.mk 1 0, Point.mk 2 0] : List Point).length ∧
      (0 < (splitSites [Point.mk 0 0, Point.mk 1 0, Point.mk 2 0]).1.length ∧
        0 < (splitSites [Point.mk 0 0, Point.mk 1 0, Point.mk 2 0]).2.length ∧
        (splitSites [Point.mk 0 0, Point.mk 1 0, Point.mk 2 0]).1.length <
          ([Point.mk 0 0, Point.mk 1 0, Point.mk 2 0] : List Point).length ∧
        (splitSites [Point.mk 0 0, Point.mk 1 0, Point.mk 2 0]).2.length <
          ([Point.mk 0 0, Point.mk 1 0, Point.mk 2 0] : List Point).length ∧
        (splitSites [Point.mk 0 0, Point.mk 1 0, Point.mk 2 0]).1 ++
            (splitSites [Point.mk 0 0, Point.mk 1 0, Point.mk 2 0]).2 =
          [Point.mk 0 0, Point.mk 1 0, Point.mk 2 0]) :=
  ⟨by decide, C9_split_decreases [Point.mk 0 0, Point.mk 1 0, Point.mk 2 0] (by decide)⟩

/-! ### Claim C10: permutation invariance -/

theorem uniquePointsAux_eq_self (l : List Point) :
    ∀ seen : List Pt, l.Pairwise (fun a b => roundKey a ≠ roundKey b) →
      (∀ p ∈ l, roundKey p ∉ seen) → uniquePointsAux l seen = l := by
  induction l with
  | nil => intro seen _ _; rfl
  | cons p rest ih =>
    intro seen hpw hseen
    unfold uniquePointsAux
    rw [if_neg (hseen p (List.mem_cons_self p rest))]
    rw [ih (roundKey p :: seen) hpw.of_cons]
    intro q hq
    simp only [List.mem_cons, not_or]
    exact ⟨fun e => (List.pairwise_cons.mp hpw).1 q hq e.symm,
      hseen q (List.mem_cons_of_mem p hq)⟩

/-- Claim C10: when the input sites have pairwise distinct `1e-6`-rounded
keys, `compute` gives the same edge list on every permutation of the input
(internally the sites are deduplicated — here a no-op — and sorted by
`(x, y)`, so the result depends only on the site set). -/
theorem C10_permutation_invariance (l1 l2 : List Point) (w h : ℚ)
    (hperm : l1.Perm l2)
    (hkeys : l1.Pairwise fun a b => roundKey a ≠ roundKey b) :
    computeVoronoi l1 w h = computeVoronoi l2 w h := by
  have hsymm : Symmetric (fun a b : Point => roundKey a ≠ roundKey b) :=
    fun a b hab e => hab e.symm
  have hkeys2 : l2.Pairwise (fun a b => roundKey a ≠ roundKey b) :=
    (hperm.pairwise_iff fun hab e => hab e.symm).mp hkeys
  have h1 : uniquePoints l1 = l1 := uniquePointsAux_eq_self l1 [] hkeys (by simp)
  have h2 : uniquePoints l2 = l2 := uniquePointsAux_eq_self l2 [] hkeys2 (by simp)
  have hsort : sortPts l1 = sortPts l2 :=
    List.eq_of_perm_of_sorted
      ((sortPts_perm l1).trans (hperm.trans (sortPts_perm l2).symm))
      (sortPts_sorted l1) (sortPts_sorted l2)
  have hlen : l1.length = l2.length := hperm.length_eq
  simp only [computeVoronoi]
  rw [h1, h2, hsort, hlen]

/-- Witness for `C10_permutation_invariance`. -/
theorem C10_permutation_invariance_witness :
    ([Point.mk 1 2, Point.mk 3 4] : List Point).Perm [Point.mk 3 4, Point.mk 1 2] ∧
      ([Point.mk 1 2, Point.mk 3 4] : List Point).Pairwise
        (fun a b => roundKey a ≠ roundKey b) ∧
      computeVoronoi [Point.mk 1 2, Point.mk 3 4] 600 600 =
        computeVoronoi [Point.mk 3 4, Point.mk 1 2] 600 600 :=
  ⟨by decide, by with_unfolding_all decide,
    C10_permutation_invariance [Point.mk 1 2, Point.mk 3 4] [Point.mk 3 4, Point.mk 1 2]
      600 600 (by decide) (by with_unfolding_all decide)⟩

/-! ### Claim C7: minimum lengths of emitted sub-segments -/

theorem sampleTs_length (n : ℕ) : (sampleTs n).length = n := by
  simp only [sampleTs, List.length_map, List.length_range]

theorem sampleTs_ne_nil (n : ℕ) (hn : 0 < n) : sampleTs n ≠ [] := by
  intro he
  have := sampleTs_length n
  rw [he] at this
  simp at this
  omega

theorem sampleTs_headD (n : ℕ) (hn : 0 < n) : (sampleTs n).headD 0 = 0 := by
  obtain ⟨m, rfl⟩ : ∃ m, n = m + 1 := ⟨n - 1, by omega⟩
  simp [sampleTs, List.range_succ_eq_map]

theorem sampleCount_pos (q : ℚ) (d : ℕ) : 0 < sampleCount q d := by
  unfold sampleCount
  omega

/-- With an all-keep mask the trim scan emits the single run from the
first sample parameter to `1`, provided there are at least two samples. -/
theorem trimLoop_some_all_true (f : ℚ → Bool) :
    ∀ (qs : List ℚ) (t s : ℚ),
      trimLoop f ((t, true) :: qs.map fun q => (q, true)) (some s) = [(s, 1)] := by
  intro qs
  induction qs with
  | nil => intro t s; simp [trimLoop]
  | cons q qs ih =>
    intro t s
    simp only [List.map_cons]
    rw [trimLoop]
    simpa using ih q s

theorem trimLoop_map_true (f : ℚ → Bool) (ts : List ℚ) (h2 : 2 ≤ ts.length) :
    trimLoop f (ts.map fun t => (t, true)) none = [(ts.headD 0, 1)] := by
  rcases ts with _ | ⟨t0, _ | ⟨t1, qs⟩⟩
  · simp at h2
  · simp at h2
  · simp only [List.map_cons, List.headD_cons]
    rw [trimLoop]
    simpa using trimLoop_some_all_true f qs t1 t0

/-- With an all-keep mask the classifier scan emits the single run
`[0, 1]` (the first sample is `t = 0`, and the run start is literally
`0.0` in the source). -/
theorem filterLoop_all_true (f : ℚ → Bool) :
    ∀ (qs : List ℚ) (prev startT : ℚ),
      filterLoop f (qs.map fun q => (q, true)) prev true startT = [(startT, 1)] := by
  intro qs
  induction qs with
  | nil => intro prev startT; simp [filterLoop]
  | cons q qs ih =>
    intro prev startT
    simp only [List.map_cons]
    rw [filterLoop]
    simpa using ih q startT

theorem filterScan_map_true (f : ℚ → Bool) (ts : List ℚ) (hne : ts ≠ []) :
    filterScan f (ts.map fun t => (t, true)) = [(0, 1)] := by
  rcases ts with _ | ⟨t0, qs⟩
  · exact absurd rfl hne
  · simp only [List.map_cons, filterScan]
    exact filterLoop_all_true f qs t0 0

/-- The keep predicate of the trim counterexample configuration is
constantly true: the whole edge lies strictly on the left side. -/
theorem trimCex_keep_const (t : ℚ) :
    isKeep true (sideValue (0 + t * (1 / 200000 - 0)) (0 + t * (0 - 0))
      [Point.mk 0 (-1)] [Point.mk 0 1000]) = true := by
  simp only [isKeep, if_true, decide_eq_true_eq, sideValue, minDistSq, List.foldl_nil]
  nlinarith [sq_nonneg (t * (1 / 200000 : ℚ))]

theorem trimEdgeIntervals_cex :
    trimEdgeIntervals [Point.mk 0 (-1)] [Point.mk 0 1000] true
      ((0 : ℚ), (0 : ℚ)) ((1 / 200000 : ℚ), (0 : ℚ)) = [(0, 1)] := by
  simp only [trimEdgeIntervals]
  have hsamples :
      (if max 60 (Nat.sqrt (Int.toNat ⌊distSq ((0:ℚ), (0:ℚ)) ((1/200000 : ℚ), (0:ℚ))⌋) / 8) < 3
        then 3
        else max 60 (Nat.sqrt (Int.toNat ⌊distSq ((0:ℚ), (0:ℚ)) ((1/200000 : ℚ), (0:ℚ))⌋) / 8)) =
        max 60 (Nat.sqrt (Int.toNat ⌊distSq ((0:ℚ), (0:ℚ)) ((1/200000 : ℚ), (0:ℚ))⌋) / 8) := by
    rw [if_neg]
    omega
  rw [hsamples]
  rw [List.map_congr_left fun t _ => by rw [trimCex_keep_const t]]
  rw [trimLoop_map_true _ _ (by rw [sampleTs_length]; omega),
    sampleTs_headD _ (by omega)]

/-- Counterexample to claim C7: the edge trimmer's minimum output length is
`1e-6`, not the claimed `1e-5` — trimming the fully-kept edge from `(0,0)`
to `(1/200000, 0)` (length `5e-6 < 1e-5`) returns the edge instead of
discarding it. -/
theorem C7_counterexample :
    trimEdgesByHP [Edge.mk (Point.mk 0 0) (Point.mk (1 / 200000) 0)]
        [Point.mk 0 (-1)] [Point.mk 0 1000] true =
      [Edge.mk (Point.mk 0 0) (Point.mk (1 / 200000) 0)] ∧
      distSq (0, 0) (1 / 200000, 0) < 1 / 10 ^ 10 := by
  constructor
  · unfold trimEdgesByHP
    simp only [List.flatMap_cons, List.flatMap_nil, List.append_nil]
    rw [trimEdgeIntervals_cex]
    simp only [List.map_cons, List.map_nil, lerpPt]
    norm_num [distSq, toPoint]
  · norm_num [distSq]

/-- Claim C7 as amended: every sub-segment emitted by the shared
sample-then-bisect procedure satisfies a minimum-length filter, but the
threshold differs between the two uses — squared length above `1e-10`
(length `1e-5`) in the dividing-chain classifier and squared length above
`1e-12` (length `1e-6`) in the edge trimmer. -/
theorem C7_amended_min_lengths :
    (∀ (A B : Pt) (ia ib : ℕ) (sites : List Point) (se : Pt × Pt),
        se ∈ filterSegmentByClosestPair A B ia ib sites →
          1 / 10 ^ 10 < distSq se.1 se.2) ∧
      (∀ (edges : List Edge) (ls rs : List Point) (keepLeft : Bool) (e : Edge),
        e ∈ trimEdgesByHP edges ls rs keepLeft →
          1 / 10 ^ 12 < distSq (e.start.x, e.start.y) (e.stop.x, e.stop.y)) := by
  constructor
  · intro A B ia ib sites se hmem
    unfold filterSegmentByClosestPair at hmem
    by_cases hshort : distSq A B < 1 / 10 ^ 18
    · rw [if_pos hshort] at hmem
      simp at hmem
    · rw [if_neg hshort] at hmem
      have := (List.mem_filter.mp hmem).2
      simpa using this
  · intro edges ls rs keepLeft e hmem
    unfold trimEdgesByHP at hmem
    rw [List.mem_flatMap] at hmem
    obtain ⟨e0, _, hmem⟩ := hmem
    rw [List.mem_map] at hmem
    obtain ⟨se, hse, rfl⟩ := hmem
    have := (List.mem_filter.mp hse).2
    simpa [toPoint] using this

/-- With exactly two sites and generating indices `0`, `1`, the classifier
keeps every sample point: the two nearest sites are always some ordering
of the pair, and there is no third site. -/
theorem isValid_two_sites (A B : Pt) (p q : Point) (t : ℚ) :
    isValid A B 0 1 [p, q] t = true := by
  simp only [isValid, sortedDistances, List.enum, List.enumFrom, List.map_cons, List.map_nil,
    List.insertionSort, List.orderedInsert]
  split <;> simp

theorem filterSegment_two_sites_eval :
    filterSegmentByClosestPair (0, 0) (1, 0) 0 1 [Point.mk 0 (-1), Point.mk 0 1] =
      [((0, 0), (1, 0))] := by
  simp only [filterSegmentByClosestPair]
  rw [if_neg (by norm_num [distSq])]
  have hmask :
      List.map
          (fun t => (t, isValid (0, 0) (1, 0) 0 1 [Point.mk 0 (-1), Point.mk 0 1] t))
          (sampleTs (sampleCount (distSq (0, 0) (1, 0)) 4)) =
        List.map (fun t => (t, true))
          (sampleTs (sampleCount (distSq (0, 0) (1, 0)) 4)) :=
    List.map_congr_left fun t _ => by
      rw [isValid_two_sites (0, 0) (1, 0) (Point.mk 0 (-1)) (Point.mk 0 1) t]
  rw [hmask]
  rw [filterScan_map_true _ _ (sampleTs_ne_nil _ (sampleCount_pos _ _))]
  simp only [List.map_cons, List.map_nil, lerpPt]
  norm_num [distSq]

/-- Witness for `C7_amended_min_lengths`. -/
theorem C7_amended_min_lengths_witness :
    (((0 : ℚ), (0 : ℚ)), ((1 : ℚ), (0 : ℚ))) ∈
        filterSegmentByClosestPair (0, 0) (1, 0) 0 1 [Point.mk 0 (-1), Point.mk 0 1] ∧
      1 / 10 ^ 10 < distSq ((0 : ℚ), (0 : ℚ)) ((1 : ℚ), (0 : ℚ)) :=
  ⟨by rw [filterSegment_two_sites_eval]; exact List.mem_singleton.mpr rfl,
    C7_amended_min_lengths.1 (0, 0) (1, 0) 0 1 [Point.mk 0 (-1), Point.mk 0 1]
      (((0 : ℚ), (0 : ℚ)), ((1 : ℚ), (0 : ℚ)))
      (by rw [filterSegment_two_sites_eval]; exact List.mem_singleton.mpr rfl)⟩

/-! ### Claim C2: all edge endpoints lie in the rectangle (up to `EPS`) -/

/-- Membership in `[0, w] × [0, h]` up to the global tolerance `EPS = 1e-9`. -/
def inRect (w h : ℚ) (p : Pt) : Prop :=
  -EPS ≤ p.1 ∧ p.1 ≤ w + EPS ∧ -EPS ≤ p.2 ∧ p.2 ≤ h + EPS

theorem clampCoord_bounds (v b : ℚ) (hb : 0 < b) (h1 : -EPS ≤ v) (h2 : v ≤ b + EPS) :
    -EPS ≤ clampCoord v b ∧ clampCoord v b ≤ b + EPS := by
  unfold clampCoord EPS at *
  split_ifs <;> constructor <;> linarith

theorem clampPt_inRect (w h : ℚ) (p : Pt) (hw : 0 < w) (hh : 0 < h)
    (hp : inRect w h p) : inRect w h (clampPt w h p) := by
  obtain ⟨h1, h2, h3, h4⟩ := hp
  obtain ⟨hx1, hx2⟩ := clampCoord_bounds p.1 w hw h1 h2
  obtain ⟨hy1, hy2⟩ := clampCoord_bounds p.2 h hh h3 h4
  exact ⟨hx1, hx2, hy1, hy2⟩

theorem uniqueOnRectAux_mem (w h : ℚ) :
    ∀ (pts out : List Pt) (q : Pt), q ∈ uniqueOnRectAux w h pts out →
      q ∈ out ∨ ∃ p ∈ pts, q = clampPt w h p := by
  intro pts
  induction pts with
  | nil => intro out q hq; exact Or.inl hq
  | cons p rest ih =>
    intro out q hq
    rw [uniqueOnRectAux] at hq
    split at hq
    · rcases ih out q hq with hmem | ⟨p0, hp0, rfl⟩
      · exact Or.inl hmem
      · exact Or.inr ⟨p0, List.mem_cons_of_mem p hp0, rfl⟩
    · rcases ih (out ++ [clampPt w h p]) q hq with hmem | ⟨p0, hp0, rfl⟩
      · rcases List.mem_append.mp hmem with hmem | hmem
        · exact Or.inl hmem
        · exact Or.inr ⟨p, List.mem_cons_self p rest, (List.mem_singleton.mp hmem)⟩
      · exact Or.inr ⟨p0, List.mem_cons_of_mem p hp0, rfl⟩

theorem uniquePointsOnRect_mem (pts : List Pt) (w h : ℚ) (q : Pt)
    (hq : q ∈ uniquePointsOnRect pts w h) : ∃ p ∈ pts, q = clampPt w h p := by
  unfold uniquePointsOnRect sortPairs at hq
  have := (List.perm_insertionSort pairLe _).mem_iff.mp hq
  rcases uniqueOnRectAux_mem w h pts [] q this with hmem | hres
  · simp at hmem
  · exact hres

theorem uniquePointsOnRect_inRect (pts : List Pt) (w h : ℚ) (hw : 0 < w) (hh : 0 < h)
    (hpts : ∀ p ∈ pts, inRect w h p) :
    ∀ q ∈ uniquePointsOnRect pts w h, inRect w h q := by
  intro q hq
  obtain ⟨p, hp, rfl⟩ := uniquePointsOnRect_mem pts w h q hq
  exact clampPt_inRect w h p hw hh (hpts p hp)

theorem vertList_inRect {w h x : ℚ} (hh : 0 < h)
    (h1 : 0 - EPS ≤ x) (h2 : x ≤ w + EPS) :
    ∀ p ∈ [(x, (0 : ℚ)), (x, h)], inRect w h p := by
  have hE : (0 : ℚ) < EPS := by norm_num [EPS]
  intro p hp
  simp only [List.mem_cons, List.mem_singleton, List.not_mem_nil, or_false] at hp
  rcases hp with rfl | rfl <;> refine ⟨?_, ?_, ?_, ?_⟩ <;> simp only [inRect] <;> linarith

theorem horizList_inRect {w h y : ℚ} (hw : 0 < w)
    (h1 : 0 - EPS ≤ y) (h2 : y ≤ h + EPS) :
    ∀ p ∈ [((0 : ℚ), y), (w, y)], inRect w h p := by
  have hE : (0 : ℚ) < EPS := by norm_num [EPS]
  intro p hp
  simp only [List.mem_cons, List.mem_singleton, List.not_mem_nil, or_false] at hp
  rcases hp with rfl | rfl <;> refine ⟨?_, ?_, ?_, ?_⟩ <;> simp only [inRect] <;> linarith

theorem filterList_inRect {w h : ℚ} (l : List Pt) :
    ∀ p ∈ l.filter
      (fun p => decide (0 - EPS ≤ p.1 ∧ p.1 ≤ w + EPS ∧ 0 - EPS ≤ p.2 ∧ p.2 ≤ h + EPS)),
      inRect w h p := by
  intro p hp
  have := (List.mem_filter.mp hp).2
  simp only [decide_eq_true_eq] at this
  exact ⟨by linarith [this.1], this.2.1, by linarith [this.2.2.1], this.2.2.2⟩

theorem nilList_inRect {w h : ℚ} : ∀ p ∈ ([] : List Pt), inRect w h p := by
  intro p hp
  simp at hp

theorem intersectLineWithRect_inRect (mid dir : Pt) (w h : ℚ) (hw : 0 < w) (hh : 0 < h) :
    ∀ q ∈ intersectLineWithRect mid dir w h, inRect w h q := by
  intro q hq
  simp only [intersectLineWithRect] at hq
  split_ifs at hq with h1 h2 h3 h4 h5 h6 h7 h8 h9
  · exact uniquePointsOnRect_inRect _ _ _ hw hh (vertList_inRect hh h3.1 h3.2) q hq
  · exact uniquePointsOnRect_inRect _ _ _ hw hh nilList_inRect q hq
  · exact uniquePointsOnRect_inRect _ _ _ hw hh (horizList_inRect hw h5.1 h5.2) q hq
  · exact uniquePointsOnRect_inRect _ _ _ hw hh nilList_inRect q hq
  · exact uniquePointsOnRect_inRect _ _ _ hw hh (filterList_inRect _) q hq
  · exact uniquePointsOnRect_inRect _ _ _ hw hh (vertList_inRect hh h7.1 h7.2) q hq
  · exact uniquePointsOnRect_inRect _ _ _ hw hh nilList_inRect q hq
  · exact uniquePointsOnRect_inRect _ _ _ hw hh (horizList_inRect hw h9.1 h9.2) q hq
  · exact uniquePointsOnRect_inRect _ _ _ hw hh nilList_inRect q hq
  · exact uniquePointsOnRect_inRect _ _ _ hw hh (filterList_inRect _) q hq

theorem lerp_bounds (a b lo hi t : ℚ) (h1 : lo ≤ a) (h2 : a ≤ hi) (h3 : lo ≤ b)
    (h4 : b ≤ hi) (ht0 : 0 ≤ t) (ht1 : t ≤ 1) :
    lo ≤ a + t * (b - a) ∧ a + t * (b - a) ≤ hi := by
  constructor <;> nlinarith

theorem lerpPt_inRect (w h : ℚ) (A B : Pt) (hA : inRect w h A) (hB : inRect w h B)
    (t : ℚ) (ht0 : 0 ≤ t) (ht1 : t ≤ 1) : inRect w h (lerpPt A B t) := by
  obtain ⟨a1, a2, a3, a4⟩ := hA
  obtain ⟨b1, b2, b3, b4⟩ := hB
  obtain ⟨x1, x2⟩ := lerp_bounds A.1 B.1 (-EPS) (w + EPS) t a1 a2 b1 b2 ht0 ht1
  obtain ⟨y1, y2⟩ := lerp_bounds A.2 B.2 (-EPS) (h + EPS) t a3 a4 b3 b4 ht0 ht1
  exact ⟨x1, x2, y1, y2⟩

/-- Parameter-range predicate for scan bounds. -/
def unitIv (t : ℚ) : Prop := 0 ≤ t ∧ t ≤ 1

theorem findBoundary_unitIv (f : ℚ → Bool) :
    ∀ (n : ℕ) (lo hi : ℚ), unitIv lo → unitIv hi → unitIv (findBoundary f n lo hi) := by
  intro n
  induction n with
  | zero => intro lo hi hlo _; exact hlo
  | succ n ih =>
    intro lo hi hlo hhi
    rw [findBoundary]
    have hm : unitIv ((lo + hi) / 2) := by
      obtain ⟨l1, l2⟩ := hlo
      obtain ⟨h1, h2⟩ := hhi
      constructor <;> [linarith; linarith]
    split
    · exact ih _ _ hm hhi
    · exact ih _ _ hlo hm

theorem entryBoundary_unitIv (f : ℚ → Bool) :
    ∀ (n : ℕ) (lo hi : ℚ), unitIv lo → unitIv hi → unitIv (entryBoundary f n lo hi) := by
  intro n
  induction n with
  | zero => intro lo hi _ hhi; exact hhi
  | succ n ih =>
    intro lo hi hlo hhi
    rw [entryBoundary]
    have hm : unitIv ((lo + hi) / 2) := by
      obtain ⟨l1, l2⟩ := hlo
      obtain ⟨h1, h2⟩ := hhi
      constructor <;> [linarith; linarith]
    split
    · exact ih _ _ hlo hm
    · exact ih _ _ hm hhi

theorem sampleTs_unitIv (n : ℕ) : ∀ t ∈ sampleTs n, unitIv t := by
  intro t ht
  simp only [sampleTs, List.mem_map, List.mem_range] at ht
  obtain ⟨i, hi, rfl⟩ := ht
  by_cases h1 : n ≤ 1
  · interval_cases n
    · omega
    · interval_cases i
      exact ⟨by norm_num, by norm_num⟩
  · have hn : (2 : ℚ) ≤ (n : ℚ) := by exact_mod_cast by omega
    have hd : (0 : ℚ) < (n : ℚ) - 1 := by linarith
    constructor
    · positivity
    · rw [div_le_one hd]
      have : (i : ℚ) ≤ (n : ℚ) - 1 := by
        have : (i : ℚ) + 1 ≤ (n : ℚ) := by exact_mod_cast hi
        linarith
      exact this

theorem filterLoop_unitIv (f : ℚ → Bool) :
    ∀ (ps : List (ℚ × Bool)) (prev : ℚ) (inSeg : Bool) (startT : ℚ),
      (∀ tb ∈ ps, unitIv tb.1) → unitIv prev → unitIv startT →
      ∀ se ∈ filterLoop f ps prev inSeg startT, unitIv se.1 ∧ unitIv se.2 := by
  intro ps
  induction ps with
  | nil =>
    intro prev inSeg startT _ _ hstart se hse
    rw [filterLoop] at hse
    split at hse
    · rw [List.mem_singleton] at hse
      subst hse
      exact ⟨hstart, by norm_num [unitIv]⟩
    · simp at hse
  | cons tb rest ih =>
    intro prev inSeg startT hps hprev hstart se hse
    obtain ⟨t, v⟩ := tb
    have htv : unitIv t := hps (t, v) (List.mem_cons_self _ _)
    have hrest : ∀ tb ∈ rest, unitIv tb.1 :=
      fun tb htb => hps tb (List.mem_cons_of_mem _ htb)
    rw [filterLoop] at hse
    split at hse
    · exact ih t true (entryBoundary f 20 prev t) hrest htv
        (entryBoundary_unitIv f 20 prev t hprev htv) se hse
    · split at hse
      · rcases List.mem_cons.mp hse with rfl | hse
        · exact ⟨hstart, findBoundary_unitIv f 20 prev t hprev htv⟩
        · exact ih t false startT hrest htv hstart se hse
      · exact ih t inSeg startT hrest htv hstart se hse

theorem filterScan_unitIv (f : ℚ → Bool) (ps : List (ℚ × Bool))
    (hps : ∀ tb ∈ ps, unitIv tb.1) :
    ∀ se ∈ filterScan f ps, unitIv se.1 ∧ unitIv se.2 := by
  rcases ps with _ | ⟨⟨t, v⟩, rest⟩
  · intro se hse; simp [filterScan] at hse
  · intro se hse
    exact filterLoop_unitIv f rest t v 0
      (fun tb htb => hps tb (List.mem_cons_of_mem _ htb))
      (hps (t, v) (List.mem_cons_self _ _)) (by norm_num [unitIv]) se hse

theorem filterSegment_inRect (w h : ℚ) (A B : Pt) (ia ib : ℕ) (sites : List Point)
    (hA : inRect w h A) (hB : inRect w h B) :
    ∀ se ∈ filterSegmentByClosestPair A B ia ib sites,
      inRect w h se.1 ∧ inRect w h se.2 := by
  intro se hse
  simp only [filterSegmentByClosestPair] at hse
  split at hse
  · simp at hse
  · have hmem := (List.mem_filter.mp hse).1
    rw [List.mem_map] at hmem
    obtain ⟨iv, hiv, rfl⟩ := hmem
    have hts : ∀ tb ∈ (sampleTs (sampleCount (distSq A B) 4)).map
        (fun t => (t, isValid A B ia ib sites t)), unitIv tb.1 := by
      intro tb htb
      rw [List.mem_map] at htb
      obtain ⟨t, ht, rfl⟩ := htb
      exact sampleTs_unitIv _ t ht
    obtain ⟨⟨hs0, hs1⟩, he0, he1⟩ := filterScan_unitIv _ _ hts iv hiv
    exact ⟨lerpPt_inRect w h A B hA hB iv.1 hs0 hs1,
      lerpPt_inRect w h A B hA hB iv.2 he0 he1⟩

theorem trimLoop_unitIv (f : ℚ → Bool) :
    ∀ (ps : List (ℚ × Bool)) (cur : Option ℚ),
      (∀ tb ∈ ps, unitIv tb.1) → (∀ s, cur = some s → unitIv s) →
      ∀ se ∈ trimLoop f ps cur, unitIv se.1 ∧ unitIv se.2 := by
  intro ps
  induction ps with
  | nil => intro cur _ _ se hse; simp [trimLoop] at hse
  | cons tb rest ih =>
    intro cur hps hcur se hse
    obtain ⟨t0, k0⟩ := tb
    have ht0 : unitIv t0 := hps (t0, k0) (List.mem_cons_self _ _)
    have hrest : ∀ tb ∈ rest, unitIv tb.1 :=
      fun tb htb => hps tb (List.mem_cons_of_mem _ htb)
    rcases rest with _ | ⟨⟨t1, k1⟩, rest2⟩
    · rw [trimLoop] at hse
      split at hse
      case isTrue hcond =>
        rw [List.mem_singleton] at hse
        subst hse
        refine ⟨?_, by norm_num [unitIv]⟩
        rcases hc : cur with _ | s
        · rw [hc] at hcond; simp at hcond
        · simpa [hc] using hcur s hc
      case isFalse => simp at hse
    · have ht1 : unitIv t1 := hrest (t1, k1) (List.mem_cons_self _ _)
      have hcur2 : ∀ s, (if k0 && cur.isNone then some t0 else cur) = some s → unitIv s := by
        intro s hs
        split at hs
        · exact (Option.some_inj.mp hs) ▸ ht0
        · exact hcur s hs
      rw [trimLoop] at hse
      split at hse
      · exact ih _ hrest hcur2 se hse
      · split at hse
        · rcases List.mem_cons.mp hse with rfl | hse
          · refine ⟨?_, findBoundary_unitIv f 30 t0 t1 ht0 ht1⟩
            rcases hc : (if k0 && cur.isNone then some t0 else cur) with _ | s
            · simpa [hc] using ht0
            · simpa [hc] using hcur2 s hc
          · exact ih none hrest (by intro s hs; cases hs) se hse
        · refine ih (some (findBoundary f 30 t1 t0)) hrest ?_ se hse
          intro s hs
          rw [← Option.some_inj.mp hs]
          exact findBoundary_unitIv f 30 t1 t0 ht1 ht0

theorem trimEdgeIntervals_unitIv (ls rs : List Point) (keepLeft : Bool) (A B : Pt) :
    ∀ se ∈ trimEdgeIntervals ls rs keepLeft A B, unitIv se.1 ∧ unitIv se.2 := by
  intro se hse
  simp only [trimEdgeIntervals] at hse
  refine trimLoop_unitIv _ _ none ?_ (by intro s hs; cases hs) se hse
  intro tb htb
  rw [List.mem_map] at htb
  obtain ⟨t, ht, rfl⟩ := htb
  exact sampleTs_unitIv _ t ht

/-- Endpoints of an edge lie in the rectangle (up to `EPS`). -/
def edgeInRect (w h : ℚ) (e : Edge) : Prop :=
  inRect w h (e.start.x, e.start.y) ∧ inRect w h (e.stop.x, e.stop.y)

theorem trimEdgesByHP_inRect (w h : ℚ) (edges : List Edge) (ls rs : List Point)
    (keepLeft : Bool) (hedges : ∀ e ∈ edges, edgeInRect w h e) :
    ∀ e ∈ trimEdgesByHP edges ls rs keepLeft, edgeInRect w h e := by
  intro e he
  unfold trimEdgesByHP at he
  rw [List.mem_flatMap] at he
  obtain ⟨e0, he0, he⟩ := he
  rw [List.mem_map] at he
  obtain ⟨se, hse, rfl⟩ := he
  have hmem := (List.mem_filter.mp hse).1
  rw [List.mem_map] at hmem
  obtain ⟨iv, hiv, rfl⟩ := hmem
  obtain ⟨⟨hs0, hs1⟩, he0b, he1b⟩ := trimEdgeIntervals_unitIv ls rs keepLeft _ _ iv hiv
  obtain ⟨hstart, hstop⟩ := hedges e0 he0
  exact ⟨lerpPt_inRect w h _ _ hstart hstop iv.1 hs0 hs1,
    lerpPt_inRect w h _ _ hstart hstop iv.2 he0b he1b⟩

theorem headD_mem {α : Type} (l : List α) (d : α) (hne : l ≠ []) : l.headD d ∈ l := by
  rcases l with _ | ⟨a, l⟩
  · exact absurd rfl hne
  · simp

theorem getLastD_mem {α : Type} (l : List α) (d : α) (hne : l ≠ []) : l.getLastD d ∈ l := by
  induction l generalizing d with
  | nil => exact absurd rfl hne
  | cons a l ih =>
    rw [List.getLastD_cons]
    rcases l with _ | ⟨b, l2⟩
    · rw [List.getLastD_nil]
      exact List.mem_singleton.mpr rfl
    · exact List.mem_cons_of_mem a (ih a (by simp))

theorem sortIf_subset_inRect (w h : ℚ) (inters : List Pt)
    (hink : ∀ q ∈ inters, inRect w h q) :
    ∀ q ∈ (if 2 < inters.length then sortPairs inters else inters), inRect w h q := by
  intro q hq
  split at hq
  · exact hink q ((List.perm_insertionSort pairLe inters).mem_iff.mp hq)
  · exact hink q hq

theorem sortIf_ne_nil (inters : List Pt) (hne : inters ≠ []) :
    (if 2 < inters.length then sortPairs inters else inters) ≠ [] := by
  split
  · intro hnil
    have hl : (sortPairs inters).length = inters.length :=
      List.length_insertionSort pairLe inters
    rw [hnil] at hl
    simp at hl
    exact hne (List.length_eq_zero.mp hl.symm)
  · exact hne

theorem computeSingleBisectorSegment_inRect (pL pR : Point) (ia ib : ℕ)
    (sites : List Point) (w h : ℚ) (hw : 0 < w) (hh : 0 < h) :
    ∀ e ∈ computeSingleBisectorSegment pL pR ia ib sites w h, edgeInRect w h e := by
  intro e he
  simp only [computeSingleBisectorSegment] at he
  split at he
  · simp at he
  case isFalse hlong =>
    rw [List.mem_map] at he
    obtain ⟨se, hse, rfl⟩ := he
    have hne : intersectLineWithRect (perpBisector pL pR).1 (perpBisector pL pR).2 w h ≠ [] := by
      intro hnil
      rw [hnil] at hlong
      simp at hlong
    have hall := sortIf_subset_inRect w h _
      (intersectLineWithRect_inRect (perpBisector pL pR).1 (perpBisector pL pR).2 w h hw hh)
    have hne2 := sortIf_ne_nil _ hne
    obtain ⟨hr1, hr2⟩ := filterSegment_inRect w h _ _ ia ib sites
      (hall _ (headD_mem _ (0, 0) hne2)) (hall _ (getLastD_mem _ (0, 0) hne2)) se hse
    exact ⟨hr1, hr2⟩

theorem computeDividingChain_inRect (lp rp : List Point) (w h : ℚ)
    (allSites : List Point) (hw : 0 < w) (hh : 0 < h) :
    ∀ e ∈ computeDividingChain lp rp w h allSites, edgeInRect w h e := by
  intro e he
  unfold computeDividingChain at he
  split at he
  · simp at he
  · rw [List.mem_flatMap] at he
    obtain ⟨iL, _, he⟩ := he
    rw [List.mem_flatMap] at he
    obtain ⟨jR, _, he⟩ := he
    exact computeSingleBisectorSegment_inRect _ _ _ _ _ w h hw hh e he

theorem threePairSegs_inRect (base dir : Pt) (ia ib : ℕ) (sites : List Point)
    (w h : ℚ) (hw : 0 < w) (hh : 0 < h) :
    ∀ e ∈ threePairSegs base dir ia ib sites w h, edgeInRect w h e := by
  intro e he
  simp only [threePairSegs] at he
  split at he
  · simp at he
  case isFalse hlong =>
    rw [List.mem_map] at he
    obtain ⟨se, hse, rfl⟩ := he
    have hne : intersectLineWithRect base dir w h ≠ [] := by
      intro hnil
      rw [hnil] at hlong
      simp at hlong
    have hA := intersectLineWithRect_inRect base dir w h hw hh _
      (headD_mem _ (0, 0) hne)
    have hB := intersectLineWithRect_inRect base dir w h hw hh _
      (getLastD_mem _ (0, 0) hne)
    obtain ⟨h1, h2⟩ := filterSegment_inRect w h _ _ ia ib sites hA hB se hse
    exact ⟨h1, h2⟩

theorem voronoiTwoPoints_inRect (p1 p2 : Point) (w h : ℚ) (hw : 0 < w) (hh : 0 < h) :
    ∀ e ∈ voronoiTwoPoints p1 p2 w h, edgeInRect w h e := by
  intro e he
  simp only [voronoiTwoPoints] at he
  split at he
  · simp at he
  · split at he
    · simp at he
    case isFalse hlong =>
      rw [List.mem_singleton] at he
      subst he
      have hne : intersectLineWithRect (perpBisector p1 p2).1 (perpBisector p1 p2).2 w h ≠ [] := by
        intro hnil
        rw [hnil] at hlong
        simp at hlong
      have hall := sortIf_subset_inRect w h _
        (intersectLineWithRect_inRect (perpBisector p1 p2).1 (perpBisector p1 p2).2 w h hw hh)
      have hne2 := sortIf_ne_nil _ hne
      exact ⟨hall _ (headD_mem _ (0, 0) hne2), hall _ (getLastD_mem _ (0, 0) hne2)⟩

theorem voronoiThreeDispatch_inRect (p1 p2 p3 : Point) (w h : ℚ) (o : Option Pt)
    (hw : 0 < w) (hh : 0 < h) :
    ∀ e ∈ voronoiThreeDispatch p1 p2 p3 w h o, edgeInRect w h e := by
  intro e he
  rcases o with _ | cc <;>
    simp only [voronoiThreeDispatch] at he <;>
    rcases List.mem_append.mp he with h12 | h3
  · rcases List.mem_append.mp h12 with hm1 | hm2
    · exact threePairSegs_inRect _ _ _ _ _ w h hw hh e hm1
    · exact threePairSegs_inRect _ _ _ _ _ w h hw hh e hm2
  · exact threePairSegs_inRect _ _ _ _ _ w h hw hh e h3
  · rcases List.mem_append.mp h12 with hm1 | hm2
    · exact threePairSegs_inRect _ _ _ _ _ w h hw hh e hm1
    · exact threePairSegs_inRect _ _ _ _ _ w h hw hh e hm2
  · exact threePairSegs_inRect _ _ _ _ _ w h hw hh e h3

theorem voronoiThreePoints_inRect (pts : List Point) (w h : ℚ) (hw : 0 < w) (hh : 0 < h) :
    ∀ e ∈ voronoiThreePoints pts w h, edgeInRect w h e := by
  intro e he
  exact voronoiThreeDispatch_inRect _ _ _ w h _ hw hh e he

theorem mergeDiagrams_inRect (left right : VoronoiDiagram) (lp rp : List Point)
    (medianX w h : ℚ) (record : Bool) (depth : ℕ) (hw : 0 < w) (hh : 0 < h)
    (hleft : ∀ e ∈ left.edges, edgeInRect w h e)
    (hright : ∀ e ∈ right.edges, edgeInRect w h e) :
    ∀ e ∈ (mergeDiagrams left right lp rp medianX w h record depth).1.edges,
      edgeInRect w h e := by
  intro e he
  simp only [mergeDiagrams] at he
  rcases List.mem_append.mp he with he | he
  · rcases List.mem_append.mp he with he | he
    · exact trimEdgesByHP_inRect w h _ _ _ _ hleft e he
    · exact trimEdgesByHP_inRect w h _ _ _ _ hright e he
  · exact computeDividingChain_inRect _ _ w h _ hw hh e he

theorem buildVoronoi_inRect (n : ℕ) :
    ∀ (pts : List Point), pts.length = n → ∀ (w h : ℚ) (record : Bool) (d : ℕ),
      0 < w → 0 < h →
      ∀ e ∈ (buildVoronoi pts w h record d).1.edges, edgeInRect w h e := by
  induction n using Nat.strong_induction_on with
  | _ n ih =>
    intro pts hlen w h record d hw hh e he
    rw [buildVoronoi] at he
    by_cases h1 : pts.length ≤ 1
    · rw [if_pos h1] at he
      simp at he
    · rw [if_neg h1] at he
      by_cases h2 : ¬record ∧ pts.length = 2
      · rw [if_pos h2] at he
        exact voronoiTwoPoints_inRect _ _ w h hw hh e he
      · rw [if_neg h2] at he
        by_cases h3 : ¬record ∧ pts.length = 3
        · rw [if_pos h3] at he
          exact voronoiThreePoints_inRect _ w h hw hh e he
        · rw [if_neg h3] at he
          refine mergeDiagrams_inRect (buildVoronoi (splitSites pts).1 w h record (d + 1)).1
            (buildVoronoi (splitSites pts).2 w h record (d + 1)).1 (splitSites pts).1
            (splitSites pts).2
            ((((splitSites pts).1.getLastD default).x + ((splitSites pts).2.headD default).x) / 2)
            w h record d hw hh ?_ ?_ e he
          · exact ih ((splitSites pts).1.length) (by rw [splitSites_fst_length]; omega)
              _ rfl w h record (d + 1) hw hh
          · exact ih ((splitSites pts).2.length) (by rw [splitSites_snd_length]; omega)
              _ rfl w h record (d + 1) hw hh

/-- Claim C2: for every input site sequence and positive rectangle
dimensions, every endpoint of every edge returned by `compute` lies within
`[0, w] × [0, h]` up to the tolerance `EPS = 1e-9`. -/
theorem C2_edges_in_rect (pts : List Point) (w h : ℚ) (hw : 0 < w) (hh : 0 < h) :
    ∀ e ∈ computeVoronoi pts w h, edgeInRect w h e := by
  intro e he
  simp only [computeVoronoi] at he
  split at he
  · simp at he
  · split at he
    · simp at he
    · split at he
      · exact voronoiTwoPoints_inRect _ _ w h hw hh e he
      · split at he
        · exact voronoiThreePoints_inRect _ w h hw hh e he
        · exact buildVoronoi_inRect _ _ rfl w h false 0 hw hh e he

/-- Witness for `C2_edges_in_rect`. -/
theorem C2_edges_in_rect_witness :
    (0 : ℚ) < 600 ∧ (0 : ℚ) < 600 ∧
      ∀ e ∈ computeVoronoi [Point.mk 0 0, Point.mk 10 0] 600 600, edgeInRect 600 600 e :=
  ⟨by norm_num, by norm_num,
    C2_edges_in_rect [Point.mk 0 0, Point.mk 10 0] 600 600 (by norm_num) (by norm_num)⟩

/-! ### Claim C5: the two-site case -/

/-- Counterexample to claim C5: the sites `(-100, 0)` and `(-90, 0)` are
distinct after `1e-6` dedup and the rectangle `10 × 10` has positive
dimensions, but their bisector (`x = -95`) misses the rectangle, so
`compute` returns no edge at all instead of exactly one. -/
theorem C5_counterexample :
    roundKey (Point.mk (-100) 0) ≠ roundKey (Point.mk (-90) 0) ∧
      computeVoronoi [Point.mk (-100) 0, Point.mk (-90) 0] 10 10 = [] := by
  with_unfolding_all decide

/-- Near-axis threshold of the intersector as a standalone function. -/
def thrOf (dir : Pt) : ℚ :=
  if EPS ^ 2 < dir.1 ^ 2 + dir.2 ^ 2 then EPS ^ 2 * (dir.1 ^ 2 + dir.2 ^ 2) else EPS ^ 2

theorem thrOf_pos (dir : Pt) : 0 < thrOf dir := by
  unfold thrOf
  have hE2 : (0 : ℚ) < EPS ^ 2 := by norm_num [EPS]
  split_ifs with hc
  · nlinarith
  · exact hE2

/-- Directions for which every point produced by the intersector lies
within the clamp tolerance `1e-8` of the parametric line: exactly
axis-parallel directions (with, for the horizontal case, a first component
large enough to escape the near-vertical fuzz band), or directions that
take the generic branch (both components at or above the branch
threshold).  In the fuzz band in between, the source snaps the line to an
axis through its reference point, which can move it arbitrarily far. -/
def okDir (dir : Pt) : Prop :=
  (dir.1 = 0 ∧ dir.2 ≠ 0) ∨ (dir.2 = 0 ∧ EPS ^ 2 ≤ dir.1 ^ 2) ∨
    (thrOf dir ≤ dir.1 ^ 2 ∧ thrOf dir ≤ dir.2 ^ 2)

instance (dir : Pt) : Decidable (okDir dir) := by unfold okDir thrOf; infer_instance

/-- Exact membership of a rational point on the parametric line. -/
def onLine (mid dir q : Pt) : Prop :=
  ∃ t : ℚ, q = (mid.1 + t * dir.1, mid.2 + t * dir.2)

theorem clampCoord_near (v b : ℚ) : |clampCoord v b - v| ≤ 1 / 100000000 := by
  unfold clampCoord
  split_ifs with h1 h2
  · rw [abs_sub_comm]
    exact le_of_lt h1
  · rw [abs_sub_comm]
    exact le_of_lt h2
  · norm_num

theorem clampPt_near (w h : ℚ) (p : Pt) :
    |(clampPt w h p).1 - p.1| ≤ 1 / 100000000 ∧
      |(clampPt w h p).2 - p.2| ≤ 1 / 100000000 :=
  ⟨clampCoord_near p.1 w, clampCoord_near p.2 h⟩

theorem intersect_eq (mid dir : Pt) (w h : ℚ) :
    intersectLineWithRect mid dir w h =
      if dir.1 ^ 2 < thrOf dir then
        uniquePointsOnRect (if 0 - EPS ≤ mid.1 ∧ mid.1 ≤ w + EPS
          then [(mid.1, 0), (mid.1, h)] else []) w h
      else if dir.2 ^ 2 < thrOf dir then
        uniquePointsOnRect (if 0 - EPS ≤ mid.2 ∧ mid.2 ≤ h + EPS
          then [((0 : ℚ), mid.2), (w, mid.2)] else []) w h
      else
        uniquePointsOnRect ((([(0 - mid.1) / dir.1, (w - mid.1) / dir.1,
            (0 - mid.2) / dir.2, (h - mid.2) / dir.2]).map
            fun t => (mid.1 + t * dir.1, mid.2 + t * dir.2)).filter
          fun p => 0 - EPS ≤ p.1 ∧ p.1 ≤ w + EPS ∧ 0 - EPS ≤ p.2 ∧ p.2 ≤ h + EPS) w h :=
  rfl

/-- Under `okDir`, every point the intersector returns is within the clamp
tolerance (per coordinate) of a point exactly on the line. -/
theorem intersectLineWithRect_near_line (mid dir : Pt) (w h : ℚ) (hok : okDir dir) :
    ∀ q ∈ intersectLineWithRect mid dir w h,
      ∃ q0 : Pt, onLine mid dir q0 ∧
        |q.1 - q0.1| ≤ 1 / 100000000 ∧ |q.2 - q0.2| ≤ 1 / 100000000 := by
  intro q hq
  have hE2 : (0 : ℚ) < EPS ^ 2 := by norm_num [EPS]
  have hE1 : EPS ^ 2 < 1 := by norm_num [EPS]
  rw [intersect_eq] at hq
  rcases hok with ⟨hz, hnz⟩ | ⟨hz, hge⟩ | ⟨hg1, hg2⟩
  · rw [if_pos (by rw [hz]; simpa using thrOf_pos dir)] at hq
    obtain ⟨p0, hp0, rfl⟩ := uniquePointsOnRect_mem _ w h q hq
    refine ⟨p0, ?_, (clampPt_near w h p0).1, (clampPt_near w h p0).2⟩
    split at hp0
    · simp only [List.mem_cons, List.mem_singleton, List.not_mem_nil, or_false] at hp0
      have hc : (0 - mid.2) / dir.2 * dir.2 = 0 - mid.2 := div_mul_cancel₀ _ hnz
      have hc2 : (h - mid.2) / dir.2 * dir.2 = h - mid.2 := div_mul_cancel₀ _ hnz
      rcases hp0 with rfl | rfl
      · refine ⟨(0 - mid.2) / dir.2, ?_⟩
        rw [hz]
        simp only [Prod.mk.injEq]
        exact ⟨by ring, by rw [hc]; ring⟩
      · refine ⟨(h - mid.2) / dir.2, ?_⟩
        rw [hz]
        simp only [Prod.mk.injEq]
        exact ⟨by ring, by rw [hc2]; ring⟩
    · simp at hp0
  · have hd1 : dir.1 ≠ 0 := by
      intro h0
      rw [h0] at hge
      norm_num at hge
      nlinarith
    have hnv : ¬ dir.1 ^ 2 < thrOf dir := by
      unfold thrOf
      rw [hz]
      have h02 : ((0 : ℚ)) ^ 2 = 0 := by norm_num
      rw [h02, add_zero]
      split_ifs with hc
      · intro hlt
        nlinarith
      · intro hlt
        exact absurd hlt (not_lt.mpr hge)
    rw [if_neg hnv, if_pos (by rw [hz]; simpa using thrOf_pos dir)] at hq
    obtain ⟨p0, hp0, rfl⟩ := uniquePointsOnRect_mem _ w h q hq
    refine ⟨p0, ?_, (clampPt_near w h p0).1, (clampPt_near w h p0).2⟩
    split at hp0
    · simp only [List.mem_cons, List.mem_singleton, List.not_mem_nil, or_false] at hp0
      have hc : (0 - mid.1) / dir.1 * dir.1 = 0 - mid.1 := div_mul_cancel₀ _ hd1
      have hc2 : (w - mid.1) / dir.1 * dir.1 = w - mid.1 := div_mul_cancel₀ _ hd1
      rcases hp0 with rfl | rfl
      · refine ⟨(0 - mid.1) / dir.1, ?_⟩
        rw [hz]
        simp only [Prod.mk.injEq]
        exact ⟨by rw [hc]; ring, by ring⟩
      · refine ⟨(w - mid.1) / dir.1, ?_⟩
        rw [hz]
        simp only [Prod.mk.injEq]
        exact ⟨by rw [hc2]; ring, by ring⟩
    · simp at hp0
  · rw [if_neg (not_lt.mpr hg1), if_neg (not_lt.mpr hg2)] at hq
    obtain ⟨p0, hp0, rfl⟩ := uniquePointsOnRect_mem _ w h q hq
    refine ⟨p0, ?_, (clampPt_near w h p0).1, (clampPt_near w h p0).2⟩
    have hmap := (List.mem_filter.mp hp0).1
    rw [List.mem_map] at hmap
    obtain ⟨t, _, rfl⟩ := hmap
    exact ⟨t, rfl⟩

/-- Embed a rational pair into the Euclidean plane (specification layer:
the tolerance clause of claim C5 concerns true Euclidean distances). -/
noncomputable def ptR (p : Pt) : EuclideanSpace ℝ (Fin 2) := ![(p.1 : ℝ), (p.2 : ℝ)]

/-- Embed a site into the Euclidean plane. -/
noncomputable def siteR (p : Point) : EuclideanSpace ℝ (Fin 2) := ![(p.x : ℝ), (p.y : ℝ)]

/-- Real parametrisation of the segment `A`–`B` (every point of the edge). -/
noncomputable def segAtR (A B : Pt) (t : ℝ) : EuclideanSpace ℝ (Fin 2) :=
  ![(A.1 : ℝ) + t * ((B.1 : ℝ) - (A.1 : ℝ)), (A.2 : ℝ) + t * ((B.2 : ℝ) - (A.2 : ℝ))]

/-- Real parametrisation of the bisector line. -/
noncomputable def lineAtR (mid dir : Pt) (s : ℝ) : EuclideanSpace ℝ (Fin 2) :=
  ![(mid.1 : ℝ) + s * (dir.1 : ℝ), (mid.2 : ℝ) + s * (dir.2 : ℝ)]

theorem dist_pair (x y : EuclideanSpace ℝ (Fin 2)) :
    dist x y = Real.sqrt ((x 0 - y 0) ^ 2 + (x 1 - y 1) ^ 2) := by
  rw [EuclideanSpace.dist_eq]
  congr 1
  rw [Fin.sum_univ_two]
  simp [Real.dist_eq, sq_abs]

/-- Every real point of the bisector line is exactly equidistant from the
two generating sites. -/
theorem lineAtR_equidist (p1 p2 : Point) (s : ℝ) :
    dist (lineAtR (perpBisector p1 p2).1 (perpBisector p1 p2).2 s) (siteR p1) =
      dist (lineAtR (perpBisector p1 p2).1 (perpBisector p1 p2).2 s) (siteR p2) := by
  rw [dist_pair, dist_pair]
  congr 1
  simp only [lineAtR, siteR, perpBisector, Matrix.cons_val_zero, Matrix.cons_val_one,
    Matrix.head_cons]
  push_cast
  ring

/-- A real point of the segment between two near-line endpoints stays
within `1.5e-8` of the corresponding point of the line. -/
theorem seg_near_line (A B A0 B0 mid dir : Pt) (tA tB : ℚ)
    (hA0 : A0 = (mid.1 + tA * dir.1, mid.2 + tA * dir.2))
    (hB0 : B0 = (mid.1 + tB * dir.1, mid.2 + tB * dir.2))
    (hAx : |A.1 - A0.1| ≤ 1 / 100000000) (hAy : |A.2 - A0.2| ≤ 1 / 100000000)
    (hBx : |B.1 - B0.1| ≤ 1 / 100000000) (hBy : |B.2 - B0.2| ≤ 1 / 100000000)
    (t : ℝ) (ht0 : 0 ≤ t) (ht1 : t ≤ 1) :
    dist (segAtR A B t) (lineAtR mid dir ((1 - t) * (tA : ℝ) + t * (tB : ℝ))) ≤
      15 / 1000000000 := by
  have hAx' : |(A.1 : ℝ) - (A0.1 : ℝ)| ≤ 1 / 100000000 := by
    have h0 : ((|A.1 - A0.1| : ℚ) : ℝ) ≤ ((1 / 100000000 : ℚ) : ℝ) := Rat.cast_le.mpr hAx
    push_cast at h0
    exact h0
  have hAy' : |(A.2 : ℝ) - (A0.2 : ℝ)| ≤ 1 / 100000000 := by
    have h0 : ((|A.2 - A0.2| : ℚ) : ℝ) ≤ ((1 / 100000000 : ℚ) : ℝ) := Rat.cast_le.mpr hAy
    push_cast at h0
    exact h0
  have hBx' : |(B.1 : ℝ) - (B0.1 : ℝ)| ≤ 1 / 100000000 := by
    have h0 : ((|B.1 - B0.1| : ℚ) : ℝ) ≤ ((1 / 100000000 : ℚ) : ℝ) := Rat.cast_le.mpr hBx
    push_cast at h0
    exact h0
  have hBy' : |(B.2 : ℝ) - (B0.2 : ℝ)| ≤ 1 / 100000000 := by
    have h0 : ((|B.2 - B0.2| : ℚ) : ℝ) ≤ ((1 / 100000000 : ℚ) : ℝ) := Rat.cast_le.mpr hBy
    push_cast at h0
    exact h0
  have hd0 : segAtR A B t 0 - lineAtR mid dir ((1 - t) * (tA : ℝ) + t * (tB : ℝ)) 0 =
      (1 - t) * ((A.1 : ℝ) - A0.1) + t * ((B.1 : ℝ) - B0.1) := by
    simp only [segAtR, lineAtR, Matrix.cons_val_zero, hA0, hB0]
    push_cast
    ring
  have hd1 : segAtR A B t 1 - lineAtR mid dir ((1 - t) * (tA : ℝ) + t * (tB : ℝ)) 1 =
      (1 - t) * ((A.2 : ℝ) - A0.2) + t * ((B.2 : ℝ) - B0.2) := by
    simp only [segAtR, lineAtR, Matrix.cons_val_one, Matrix.head_cons, hA0, hB0]
    push_cast
    ring
  have hb0 : |segAtR A B t 0 - lineAtR mid dir ((1 - t) * (tA : ℝ) + t * (tB : ℝ)) 0| ≤
      1 / 100000000 := by
    rw [hd0]
    calc |(1 - t) * ((A.1 : ℝ) - A0.1) + t * ((B.1 : ℝ) - B0.1)|
        ≤ |(1 - t) * ((A.1 : ℝ) - A0.1)| + |t * ((B.1 : ℝ) - B0.1)| := abs_add _ _
      _ = (1 - t) * |(A.1 : ℝ) - A0.1| + t * |(B.1 : ℝ) - B0.1| := by
          rw [abs_mul, abs_mul, abs_of_nonneg (by linarith), abs_of_nonneg ht0]
      _ ≤ (1 - t) * (1 / 100000000) + t * (1 / 100000000) := by
          have := abs_nonneg ((A.1 : ℝ) - A0.1)
          have := abs_nonneg ((B.1 : ℝ) - B0.1)
          nlinarith
      _ = 1 / 100000000 := by ring
  have hb1 : |segAtR A B t 1 - lineAtR mid dir ((1 - t) * (tA : ℝ) + t * (tB : ℝ)) 1| ≤
      1 / 100000000 := by
    rw [hd1]
    calc |(1 - t) * ((A.2 : ℝ) - A0.2) + t * ((B.2 : ℝ) - B0.2)|
        ≤ |(1 - t) * ((A.2 : ℝ) - A0.2)| + |t * ((B.2 : ℝ) - B0.2)| := abs_add _ _
      _ = (1 - t) * |(A.2 : ℝ) - A0.2| + t * |(B.2 : ℝ) - B0.2| := by
          rw [abs_mul, abs_mul, abs_of_nonneg (by linarith), abs_of_nonneg ht0]
      _ ≤ (1 - t) * (1 / 100000000) + t * (1 / 100000000) := by
          have := abs_nonneg ((A.2 : ℝ) - A0.2)
          have := abs_nonneg ((B.2 : ℝ) - B0.2)
          nlinarith
      _ = 1 / 100000000 := by ring
  rw [dist_pair]
  have hsq : (segAtR A B t 0 - lineAtR mid dir ((1 - t) * (tA : ℝ) + t * (tB : ℝ)) 0) ^ 2 +
      (segAtR A B t 1 - lineAtR mid dir ((1 - t) * (tA : ℝ) + t * (tB : ℝ)) 1) ^ 2 ≤
      (15 / 1000000000) ^ 2 := by
    have s0 := sq_abs (segAtR A B t 0 - lineAtR mid dir ((1 - t) * (tA : ℝ) + t * (tB : ℝ)) 0)
    have s1 := sq_abs (segAtR A B t 1 - lineAtR mid dir ((1 - t) * (tA : ℝ) + t * (tB : ℝ)) 1)
    nlinarith [abs_nonneg (segAtR A B t 0 - lineAtR mid dir ((1 - t) * (tA : ℝ) + t * (tB : ℝ)) 0),
      abs_nonneg (segAtR A B t 1 - lineAtR mid dir ((1 - t) * (tA : ℝ) + t * (tB : ℝ)) 1)]
  calc Real.sqrt ((segAtR A B t 0 - lineAtR mid dir ((1 - t) * (tA : ℝ) + t * (tB : ℝ)) 0) ^ 2 +
        (segAtR A B t 1 - lineAtR mid dir ((1 - t) * (tA : ℝ) + t * (tB : ℝ)) 1) ^ 2)
      ≤ Real.sqrt ((15 / 1000000000) ^ 2) := Real.sqrt_le_sqrt hsq
    _ = 15 / 1000000000 := Real.sqrt_sq (by norm_num)

theorem sortIf_mem (inters : List Pt) (x : Pt)
    (hx : x ∈ (if 2 < inters.length then sortPairs inters else inters)) : x ∈ inters := by
  split at hx
  · exact (List.perm_insertionSort pairLe inters).mem_iff.mp hx
  · exact hx

/-- Working form of the amended claim C5 for `_voronoi_two_points`. -/
theorem voronoiTwoPoints_spec (p1 p2 : Point) (w h : ℚ)
    (hfar : ¬(|p1.x - p2.x| < EPS ∧ |p1.y - p2.y| < EPS))
    (hok : okDir (perpBisector p1 p2).2)
    (hints : 2 ≤ (intersectLineWithRect (perpBisector p1 p2).1 (perpBisector p1 p2).2 w h).length) :
    ∃ A B : Pt,
      voronoiTwoPoints p1 p2 w h = [Edge.mk (toPoint A) (toPoint B)] ∧
      A ∈ intersectLineWithRect (perpBisector p1 p2).1 (perpBisector p1 p2).2 w h ∧
      B ∈ intersectLineWithRect (perpBisector p1 p2).1 (perpBisector p1 p2).2 w h ∧
      ∀ t : ℝ, 0 ≤ t → t ≤ 1 →
        |dist (segAtR A B t) (siteR p1) - dist (segAtR A B t) (siteR p2)| ≤ 1 / 10 ^ 4 := by
  have hne : intersectLineWithRect (perpBisector p1 p2).1 (perpBisector p1 p2).2 w h ≠ [] := by
    intro hnil
    rw [hnil] at hints
    simp at hints
  refine ⟨(if 2 < (intersectLineWithRect (perpBisector p1 p2).1 (perpBisector p1 p2).2 w h).length
      then sortPairs (intersectLineWithRect (perpBisector p1 p2).1 (perpBisector p1 p2).2 w h)
      else intersectLineWithRect (perpBisector p1 p2).1 (perpBisector p1 p2).2 w h).headD (0, 0),
    (if 2 < (intersectLineWithRect (perpBisector p1 p2).1 (perpBisector p1 p2).2 w h).length
      then sortPairs (intersectLineWithRect (perpBisector p1 p2).1 (perpBisector p1 p2).2 w h)
      else intersectLineWithRect (perpBisector p1 p2).1 (perpBisector p1 p2).2 w h).getLastD (0, 0),
    ?_, ?_, ?_, ?_⟩
  · simp only [voronoiTwoPoints]
    rw [if_neg hfar, if_neg (by omega)]
  · exact sortIf_mem _ _ (headD_mem _ (0, 0) (sortIf_ne_nil _ hne))
  · exact sortIf_mem _ _ (getLastD_mem _ (0, 0) (sortIf_ne_nil _ hne))
  · obtain ⟨A0, ⟨tA, hA0⟩, hAx, hAy⟩ :=
      intersectLineWithRect_near_line (perpBisector p1 p2).1 (perpBisector p1 p2).2 w h hok _
        (sortIf_mem _ _ (headD_mem _ (0, 0) (sortIf_ne_nil _ hne)))
    obtain ⟨B0, ⟨tB, hB0⟩, hBx, hBy⟩ :=
      intersectLineWithRect_near_line (perpBisector p1 p2).1 (perpBisector p1 p2).2 w h hok _
        (sortIf_mem _ _ (getLastD_mem _ (0, 0) (sortIf_ne_nil _ hne)))
    intro t ht0 ht1
    have hnear := seg_near_line _ _ A0 B0 (perpBisector p1 p2).1 (perpBisector p1 p2).2
      tA tB hA0 hB0 hAx hAy hBx hBy t ht0 ht1
    have heq := lineAtR_equidist p1 p2 ((1 - t) * (tA : ℝ) + t * (tB : ℝ))
    have tri1 := abs_dist_sub_le
      (segAtR ((if 2 < (intersectLineWithRect (perpBisector p1 p2).1 (perpBisector p1 p2).2 w h).length
        then sortPairs (intersectLineWithRect (perpBisector p1 p2).1 (perpBisector p1 p2).2 w h)
        else intersectLineWithRect (perpBisector p1 p2).1 (perpBisector p1 p2).2 w h).headD (0, 0))
        ((if 2 < (intersectLineWithRect (perpBisector p1 p2).1 (perpBisector p1 p2).2 w h).length
        then sortPairs (intersectLineWithRect (perpBisector p1 p2).1 (perpBisector p1 p2).2 w h)
        else intersectLineWithRect (perpBisector p1 p2).1 (perpBisector p1 p2).2 w h).getLastD (0, 0)) t)
      (lineAtR (perpBisector p1 p2).1 (perpBisector p1 p2).2 ((1 - t) * (tA : ℝ) + t * (tB : ℝ)))
      (siteR p1)
    have tri2 := abs_dist_sub_le
      (segAtR ((if 2 < (intersectLineWithRect (perpBisector p1 p2).1 (perpBisector p1 p2).2 w h).length
        then sortPairs (intersectLineWithRect (perpBisector p1 p2).1 (perpBisector p1 p2).2 w h)
        else intersectLineWithRect (perpBisector p1 p2).1 (perpBisector p1 p2).2 w h).headD (0, 0))
        ((if 2 < (intersectLineWithRect (perpBisector p1 p2).1 (perpBisector p1 p2).2 w h).length
        then sortPairs (intersectLineWithRect (perpBisector p1 p2).1 (perpBisector p1 p2).2 w h)
        else intersectLineWithRect (perpBisector p1 p2).1 (perpBisector p1 p2).2 w h).getLastD (0, 0)) t)
      (lineAtR (perpBisector p1 p2).1 (perpBisector p1 p2).2 ((1 - t) * (tA : ℝ) + t * (tB : ℝ)))
      (siteR p2)
    rw [heq] at tri1
    rw [abs_sub_le_iff] at tri1 tri2
    rw [abs_sub_le_iff]
    constructor <;> nlinarith

theorem perpBisector_swap_fst (p q : Point) :
    (perpBisector q p).1 = (perpBisector p q).1 := by
  unfold perpBisector
  simp only [Prod.mk.injEq]
  constructor <;> ring

theorem perpBisector_swap_snd (p q : Point) :
    (perpBisector q p).2 = (-(perpBisector p q).2.1, -(perpBisector p q).2.2) := by
  unfold perpBisector
  simp only [Prod.mk.injEq]
  constructor <;> ring

theorem thrOf_neg (a b : ℚ) : thrOf (-a, -b) = thrOf (a, b) := by
  unfold thrOf
  rw [show ((-a, -b) : Pt).1 ^ 2 = ((a, b) : Pt).1 ^ 2 by ring,
    show ((-a, -b) : Pt).2 ^ 2 = ((a, b) : Pt).2 ^ 2 by ring]

theorem okDir_neg (a b : ℚ) : okDir (-a, -b) ↔ okDir (a, b) := by
  unfold okDir
  rw [thrOf_neg]
  rw [show ((-a, -b) : Pt).1 ^ 2 = ((a, b) : Pt).1 ^ 2 by ring,
    show ((-a, -b) : Pt).2 ^ 2 = ((a, b) : Pt).2 ^ 2 by ring]
  simp only [neg_eq_zero, ne_eq]

theorem intersectLineWithRect_neg (mid : Pt) (a b w h : ℚ) :
    intersectLineWithRect mid (-a, -b) w h = intersectLineWithRect mid (a, b) w h := by
  rw [intersect_eq, intersect_eq, thrOf_neg]
  rw [show ((-a, -b) : Pt).1 ^ 2 = ((a, b) : Pt).1 ^ 2 by ring,
    show ((-a, -b) : Pt).2 ^ 2 = ((a, b) : Pt).2 ^ 2 by ring]
  by_cases h1 : ((a, b) : Pt).1 ^ 2 < thrOf (a, b)
  · rw [if_pos h1, if_pos h1]
  · rw [if_neg h1, if_neg h1]
    by_cases h2 : ((a, b) : Pt).2 ^ 2 < thrOf (a, b)
    · rw [if_pos h2, if_pos h2]
    · rw [if_neg h2, if_neg h2]
      congr 1
      simp only [List.map_cons, List.map_nil]
      norm_num [div_neg, neg_div]

/-- Claim C5 as amended: for a pair of sites that survive dedup as two
distinct sites, differ by at least `EPS` in some coordinate, whose
bisector direction is outside the near-axis fuzz band (`okDir`), and whose
bisector actually crosses the rectangle in at least two clipped points,
`compute` returns exactly one edge; its endpoints are taken from the
bisector–rectangle intersection, and every point of the edge is
equidistant from the two sites within `1e-4` (indeed within `3e-8`). -/
theorem C5_amended_two_point_bisector (p q : Point) (w h : ℚ)
    (hkey : roundKey p ≠ roundKey q)
    (hfar : ¬(|p.x - q.x| < EPS ∧ |p.y - q.y| < EPS))
    (hok : okDir (perpBisector p q).2)
    (hints : 2 ≤ (intersectLineWithRect (perpBisector p q).1 (perpBisector p q).2 w h).length) :
    ∃ A B : Pt,
      computeVoronoi [p, q] w h = [Edge.mk (toPoint A) (toPoint B)] ∧
      A ∈ intersectLineWithRect (perpBisector p q).1 (perpBisector p q).2 w h ∧
      B ∈ intersectLineWithRect (perpBisector p q).1 (perpBisector p q).2 w h ∧
      ∀ t : ℝ, 0 ≤ t → t ≤ 1 →
        |dist (segAtR A B t) (siteR p) - dist (segAtR A B t) (siteR q)| ≤ 1 / 10 ^ 4 := by
  have hqp_inters : intersectLineWithRect (perpBisector q p).1 (perpBisector q p).2 w h =
      intersectLineWithRect (perpBisector p q).1 (perpBisector p q).2 w h := by
    rw [perpBisector_swap_fst, perpBisector_swap_snd]
    rw [show (-(perpBisector p q).2.1, -(perpBisector p q).2.2) =
      ((-(perpBisector p q).2.1, -(perpBisector p q).2.2) : Pt) from rfl]
    rw [intersectLineWithRect_neg]
  have huniq : uniquePoints [p, q] = [p, q] := by
    have hqp : roundKey q ≠ roundKey p := Ne.symm hkey
    simp [uniquePoints, uniquePointsAux, hqp]
  have hlen2 : (uniquePoints [p, q]).length = 2 := by rw [huniq]; rfl
  have hsorted : sortPts [p, q] = if ptLe p q then [p, q] else [q, p] := by
    simp [sortPts, List.insertionSort, List.orderedInsert]
  simp only [computeVoronoi]
  rw [huniq]
  have hc0 : ¬ ([p, q] : List Point).length = 0 := by simp
  have hc1 : ¬ ([p, q] : List Point).length = 1 := by simp
  have hc2 : ([p, q] : List Point).length = 2 := rfl
  rw [if_neg hc0, if_neg hc1, if_pos hc2, hsorted]
  by_cases hle : ptLe p q
  · rw [if_pos hle]
    exact voronoiTwoPoints_spec p q w h hfar hok hints
  · rw [if_neg hle]
    have hfar2 : ¬(|q.x - p.x| < EPS ∧ |q.y - p.y| < EPS) := by
      rw [abs_sub_comm q.x p.x, abs_sub_comm q.y p.y]
      exact hfar
    have hok2 : okDir (perpBisector q p).2 := by
      rw [perpBisector_swap_snd]
      exact (okDir_neg _ _).mpr hok
    have hints2 : 2 ≤ (intersectLineWithRect (perpBisector q p).1
        (perpBisector q p).2 w h).length := by
      rw [hqp_inters]
      exact hints
    obtain ⟨A, B, heq, hA, hB, hdist⟩ := voronoiTwoPoints_spec q p w h hfar2 hok2 hints2
    rw [hqp_inters] at hA hB
    refine ⟨A, B, heq, hA, hB, ?_⟩
    intro t ht0 ht1
    rw [abs_sub_comm]
    exact hdist t ht0 ht1

/-- Witness for `C5_amended_two_point_bisector`. -/
theorem C5_amended_two_point_bisector_witness :
    (roundKey (Point.mk 0 0) ≠ roundKey (Point.mk 10 0) ∧
      ¬(|(Point.mk 0 0).x - (Point.mk 10 0).x| < EPS ∧
          |(Point.mk 0 0).y - (Point.mk 10 0).y| < EPS) ∧
      okDir (perpBisector (Point.mk 0 0) (Point.mk 10 0)).2 ∧
      2 ≤ (intersectLineWithRect (perpBisector (Point.mk 0 0) (Point.mk 10 0)).1
        (perpBisector (Point.mk 0 0) (Point.mk 10 0)).2 600 600).length) ∧
    ∃ A B : Pt,
      computeVoronoi [Point.mk 0 0, Point.mk 10 0] 600 600 =
        [Edge.mk (toPoint A) (toPoint B)] ∧
      A ∈ intersectLineWithRect (perpBisector (Point.mk 0 0) (Point.mk 10 0)).1
        (perpBisector (Point.mk 0 0) (Point.mk 10 0)).2 600 600 ∧
      B ∈ intersectLineWithRect (perpBisector (Point.mk 0 0) (Point.mk 10 0)).1
        (perpBisector (Point.mk 0 0) (Point.mk 10 0)).2 600 600 ∧
      ∀ t : ℝ, 0 ≤ t → t ≤ 1 →
        |dist (segAtR A B t) (siteR (Point.mk 0 0)) -
            dist (segAtR A B t) (siteR (Point.mk 10 0))| ≤ 1 / 10 ^ 4 :=
  ⟨⟨by with_unfolding_all decide, by with_unfolding_all decide,
      by with_unfolding_all decide, by with_unfolding_all decide⟩,
    C5_amended_two_point_bisector (Point.mk 0 0) (Point.mk 10 0) 600 600
      (by with_unfolding_all decide) (by with_unfolding_all decide)
      (by with_unfolding_all decide) (by with_unfolding_all decide)⟩

end VoronoiCore
